import Mathlib

/-!
Verification of the insider-identity resolution and cross-entity aggregation
pipeline of the sec-edgar-mcp repository, via a shallow embedding of the
Python sources (`name_matching.py`, `utils.py`, `form4_parser.py`,
`cross_company_search.py`) into Lean.

Modelling conventions:
* Python floats are modelled as rationals (`ℚ`); machine dates as `Int`
  day ordinals (`date.min.toordinal() = 1`).
* Python `None` is modelled by `Option`; Python truthiness of strings is
  `s ≠ ""`, of lists `l ≠ []`.
* Whitespace and case-mapping are modelled over the ASCII range, matching
  the regexes and string methods the source applies to ASCII SEC data.
* Library calls that leave the repository (e.g. `xml.etree.fromstring`,
  `BeautifulSoup`, `datetime.strptime`, network fetches) are universally
  quantified oracle parameters; everything written in the repository is
  embedded concretely.
All definitions are structurally recursive so that concrete runs reduce
inside the kernel.
-/

attribute [local semireducible] Rat.mul Rat.add Rat.sub Rat.inv

namespace SecEdgar

/-- ASCII whitespace: the characters matched by Python `str.strip`,
`str.split` and the regex class `\s` on ASCII input. -/
def isWs (c : Char) : Bool :=
  c = ' ' || c = '\t' || c = '\n' || c = '\r' || c = '\x0b' || c = '\x0c'

/-- The punctuation removed by `normalize_name` (regex `[.,;:!?]`). -/
def isPunctNM (c : Char) : Bool :=
  c = '.' || c = ',' || c = ';' || c = ':' || c = '!' || c = '?'

/-- ASCII `str.lower` on one character. -/
def lowerChar (c : Char) : Char :=
  if 'A' ≤ c ∧ c ≤ 'Z' then Char.ofNat (c.toNat + 32) else c

/-- ASCII `str.upper` on one character. -/
def upperChar (c : Char) : Char :=
  if 'a' ≤ c ∧ c ≤ 'z' then Char.ofNat (c.toNat - 32) else c

/-- `str.upper` on a whole string. -/
def upperStr (s : String) : String := (s.toList.map upperChar).asString

/-- Drop trailing whitespace. -/
def dropTrailWs (l : List Char) : List Char := (l.reverse.dropWhile isWs).reverse

/-- Python `str.strip()`. -/
def stripWs (l : List Char) : List Char := dropTrailWs (l.dropWhile isWs)

/-- `re.sub(r'\s+', ' ', s)`: replace every maximal whitespace run by one
space. -/
def collapseWs : List Char → List Char
  | [] => []
  | [c] => if isWs c then [' '] else [c]
  | c :: d :: rest =>
    if isWs c then
      (if isWs d then collapseWs (d :: rest) else ' ' :: collapseWs (d :: rest))
    else c :: collapseWs (d :: rest)

/-- Accumulator worker for `splitWs`; `acc` holds the current word reversed. -/
def splitWsAux : List Char → List Char → List (List Char)
  | [], acc => if acc = [] then [] else [acc.reverse]
  | c :: rest, acc =>
    if isWs c then
      (if acc = [] then splitWsAux rest [] else acc.reverse :: splitWsAux rest [])
    else splitWsAux rest (c :: acc)

/-- Python `str.split()`: split on whitespace runs, dropping empty pieces. -/
def splitWs (l : List Char) : List (List Char) := splitWsAux l []

/-- Python `s.split(sep)` for a single-character separator (keeps empties). -/
def splitOnChar (sep : Char) : List Char → List (List Char)
  | [] => [[]]
  | c :: rest =>
    if c = sep then [] :: splitOnChar sep rest
    else
      match splitOnChar sep rest with
      | [] => [[c]]
      | w :: ws => (c :: w) :: ws

/-- `' '.join(words)` on character lists. -/
def joinSp : List (List Char) → List Char
  | [] => []
  | [w] => w
  | w :: ws => w ++ ' ' :: joinSp ws

/-- First-occurrence deduplication preserving order. -/
def dedupKeepOrder : List String → List String → List String
  | _, [] => []
  | seen, x :: xs =>
    if seen.contains x then dedupKeepOrder seen xs
    else x :: dedupKeepOrder (x :: seen) xs

/-! ### `name_matching.py` : `IntelligentNameMatcher` -/

/-- `IntelligentNameMatcher.prefixes`. -/
def prefixes : List String :=
  ["mr", "mrs", "ms", "dr", "prof", "sir", "dame", "lord", "lady",
   "rev", "father", "sister", "brother"]

/-- `IntelligentNameMatcher.suffixes`. -/
def suffixes : List String :=
  ["jr", "sr", "ii", "iii", "iv", "esq", "md", "phd", "jd", "cpa",
   "cfa", "mba", "pe", "rn"]

/-- `IntelligentNameMatcher.nickname_map`. -/
def nicknameMap : List (String × String) :=
  [("bill", "william"), ("billy", "william"), ("will", "william"),
   ("bob", "robert"), ("bobby", "robert"), ("rob", "robert"), ("robbie", "robert"),
   ("dick", "richard"), ("rick", "richard"), ("ricky", "richard"), ("rich", "richard"),
   ("jim", "james"), ("jimmy", "james"), ("jamie", "james"),
   ("mike", "michael"), ("micky", "michael"), ("mickey", "michael"),
   ("dave", "david"), ("davey", "david"),
   ("steve", "steven"), ("stevie", "steven"),
   ("chris", "christopher"), ("christi", "christopher"),
   ("dan", "daniel"), ("danny", "daniel"),
   ("tom", "thomas"), ("tommy", "thomas"),
   ("tony", "anthony"), ("ant", "anthony"),
   ("joe", "joseph"), ("joey", "joseph"),
   ("ben", "benjamin"), ("benny", "benjamin"),
   ("sam", "samuel"), ("sammy", "samuel"),
   ("matt", "matthew"), ("matty", "matthew"),
   ("nick", "nicholas"), ("nicky", "nicholas"),
   ("andy", "andrew"), ("drew", "andrew"),
   ("greg", "gregory"), ("greggy", "gregory"),
   ("pat", "patricia"), ("patty", "patricia"), ("patti", "patricia"),
   ("liz", "elizabeth"), ("beth", "elizabeth"), ("betty", "elizabeth"), ("betsy", "elizabeth"),
   ("sue", "susan"), ("susie", "susan"), ("suzy", "susan"),
   ("kathy", "katherine"), ("kate", "katherine"), ("katie", "katherine"), ("kit", "katherine"),
   ("jen", "jennifer"), ("jenny", "jennifer"), ("jenn", "jennifer"),
   ("amy", "amelia"), ("mel", "amelia"), ("melly", "amelia")]

/-- `self.nickname_map.get(word, word)`. -/
def nicknameOf (w : String) : String :=
  match nicknameMap.find? (fun p => p.1 == w) with
  | some p => p.2
  | none => w

/-- The dead comma branch of `normalize_name`
(`"Last, First Middle" -> "First Middle Last"`). -/
def commaRework (s : List Char) : List Char :=
  let parts := (splitOnChar ',' s).map stripWs
  if 2 ≤ parts.length then
    let last_name := parts.headD []
    let first_parts := splitWs (parts.getD 1 [])
    joinSp first_parts ++ ' ' :: last_name
  else s

/-- The word-level steps of `normalize_name`: drop leading honorifics, drop
trailing suffixes, drop single-character tokens, expand nicknames. -/
def normPipe (w0 : List String) : List String :=
  let w1 := w0.dropWhile (fun w => prefixes.contains w)
  let w2 := (w1.reverse.dropWhile (fun w => suffixes.contains w)).reverse
  let w3 := w2.filter (fun w => 1 < w.length)
  w3.map nicknameOf

/-- Embedding of `IntelligentNameMatcher.normalize_name`
(`name_matching.py`, lines 68-113). -/
def normalize_name (name : String) : String :=
  if stripWs name.toList = [] then ""
  else
    let s1 := collapseWs (stripWs (name.toList.map lowerChar))
    let s2 := s1.filter (fun c => !isPunctNM c)
    let s3 := if s2.contains ',' then commaRework s2 else s2
    (joinSp ((normPipe ((splitWs s3).map List.asString)).map String.toList)).asString

/-! ### `difflib.SequenceMatcher(None, a, b).ratio()`

`calculate_similarity` falls back to `difflib`. With `isjunk = None` the
junk set is empty; `autojunk` marks a character of `b` "popular" when
`len(b) >= 200` and it occurs more than `len(b) // 100 + 1` times.
`find_longest_match` chain-matches only through non-popular characters of
`b` and then extends the best block over arbitrary equal characters. -/

/-- Length of the common run of `a` and `b` chain-matching only through
characters of `b` that are not popular. -/
def npRun (pop : Char → Bool) : List Char → List Char → Nat
  | c :: cs, d :: ds => if c = d ∧ pop d = false then npRun pop cs ds + 1 else 0
  | _, _ => 0

/-- Plain common-run length (used by the block-extension loops, which match
through popular characters as well). -/
def runEq : List Char → List Char → Nat := npRun (fun _ => false)

/-- All `(i, j, npRun (a.drop i) (b.drop j))` candidates, in the scan order
of `find_longest_match` (ascending `i`, then ascending `j`). -/
def blockCands (pop : Char → Bool) (a b : List Char) : List (Nat × Nat × Nat) :=
  (List.range a.length).flatMap fun i =>
    (List.range b.length).map fun j => (i, j, npRun pop (a.drop i) (b.drop j))

/-- Keep the first candidate achieving the maximal run length — this is the
block `find_longest_match`'s dynamic program settles on (maximal size, then
least `i`, then least `j`). -/
def pickBest (l : List (Nat × Nat × Nat)) : Nat × Nat × Nat :=
  l.foldl (fun best c => if best.2.2 < c.2.2 then c else best) (0, 0, 0)

/-- `find_longest_match(0, len a, 0, len b)`: the dynamic-programming block,
then the two extension loops (the junk extension loops are no-ops since the
junk set is empty). -/
def bestBlock (pop : Char → Bool) (a b : List Char) : Nat × Nat × Nat :=
  let t := pickBest (blockCands pop a b)
  let i := t.1
  let j := t.2.1
  let k := t.2.2
  let e := runEq (a.take i).reverse (b.take j).reverse
  let r := runEq (a.drop (i + k)) (b.drop (j + k))
  (i - e, j - e, k + e + r)

/-- Total size of `get_matching_blocks`: recursively take the longest match
and recurse on both sides.  The fuel argument is `a.length + b.length` at the
top call; each recursive call strictly shrinks the window, so fuel never runs
out on the original call. -/
def matchTotal (pop : Char → Bool) : Nat → List Char → List Char → Nat
  | 0, _, _ => 0
  | fuel + 1, a, b =>
    let t := bestBlock pop a b
    let i := t.1
    let j := t.2.1
    let k := t.2.2
    if k = 0 then 0
    else
      matchTotal pop fuel (a.take i) (b.take j) + k +
        matchTotal pop fuel (a.drop (i + k)) (b.drop (j + k))

/-- The `autojunk` popularity test of `SequenceMatcher.__chain_b`. -/
def popularSet (b : List Char) : Char → Bool :=
  if 200 ≤ b.length then fun c => b.length / 100 + 1 < b.count c
  else fun _ => false

/-- `SequenceMatcher(None, a, b).ratio()` as a rational:
`2 * M / (len a + len b)` (and `1.0` on two empty sequences). -/
def seqMatchScore (a b : List Char) : ℚ :=
  let m := matchTotal (popularSet b) (a.length + b.length) a b
  if a.length + b.length = 0 then 1
  else mkRat (2 * m) (a.length + b.length)

/-! ### `name_matching.py` : similarity and matching -/

/-- The word set `set(norm.split())` of a normalized name. -/
def wordSet (s : String) : Finset String :=
  ((splitWs s.toList).map List.asString).toFinset

/-- Embedding of `IntelligentNameMatcher.calculate_similarity`
(`name_matching.py`, lines 115-145). -/
def calculate_similarity (name1 name2 : String) : ℚ :=
  if name1 = "" ∨ name2 = "" then 0
  else
    let norm1 := normalize_name name1
    let norm2 := normalize_name name2
    if norm1 = norm2 then 1
    else
      let words1 := wordSet norm1
      let words2 := wordSet norm2
      let inter := (words1 ∩ words2).card
      let uni := (words1 ∪ words2).card
      if words1.Nonempty ∧ words2.Nonempty ∧ 2 ≤ inter then
        (if 0 < uni then mkRat inter uni else 0)
      else
        let ss := seqMatchScore norm1.toList norm2.toList
        if mkRat 8 10 < ss then ss else 0

/-- Embedding of `IntelligentNameMatcher.is_name_match`; the source's
default threshold is `0.8`. -/
def is_name_match (name1 name2 : String) (threshold : ℚ) : Bool :=
  decide (threshold ≤ calculate_similarity name1 name2)

/-! ### `sec_fulltext_search.py` : `generate_name_variations` -/

/-- Embedding of `generate_name_variations` (`sec_fulltext_search.py`,
lines 260-320). -/
def generate_name_variations (person_name : String) : List String :=
  let normalized := normalize_name person_name
  let parts := (splitWs normalized.toList).map List.asString
  if parts = [] then [person_name]
  else
    let base := [person_name, normalized]
    let v2 :=
      if 2 ≤ parts.length then
        let fn := parts.headD ""
        let ln := parts.getLastD ""
        [fn ++ " " ++ ln, ln ++ " " ++ fn, ln ++ ", " ++ fn,
         upperStr ln ++ " " ++ upperStr fn, upperStr ln ++ ", " ++ upperStr fn,
         upperStr ln ++ " " ++ (joinSp ((parts.dropLast.map upperStr).map String.toList)).asString]
      else []
    let v3 :=
      if parts.length = 3 then
        let fn := parts.headD ""
        let mid := parts.getD 1 ""
        let ln := parts.getD 2 ""
        [fn ++ " " ++ mid.take 1 ++ ". " ++ ln,
         fn ++ " " ++ mid.take 1 ++ " " ++ ln,
         ln ++ " " ++ fn ++ " " ++ mid.take 1,
         upperStr ln ++ " " ++ upperStr fn ++ " " ++ upperStr (mid.take 1)]
      else []
    dedupKeepOrder []
      (((base ++ v2 ++ v3).map fun v => (stripWs v.toList).asString).filter (· ≠ ""))

/-! ### `utils.py` : `Cache` and the `cached` decorator

Time is an `Int` (seconds); TTLs follow `Cache.default_ttl`.  The MD5/JSON
step of `Cache._get_cache_key` is a deterministic injective serialization of
`[func.__name__, args, sorted(kwargs.items())]`; it is modelled by using
that canonical triple itself as the key. -/

/-- `str.lower` on a whole string. -/
def lowerStr (s : String) : String := (s.toList.map lowerChar).asString

/-- `Cache.default_ttl` (seconds): `self.default_ttl.get(filing_type.lower(),
self.default_ttl['default'])`. -/
def default_ttl (filing_type : String) : Int :=
  let ft := lowerStr filing_type
  if ft = "form4" then 3600
  else if ft = "13f" then 86400
  else if ft = "10k" then 604800
  else if ft = "10q" then 604800
  else if ft = "8k" then 3600
  else 14400

/-- One entry of `Cache.cache`: the stored value (which may be Python
`None`), its expiry instant and the filing type. -/
structure CacheEntry (V : Type) where
  value : Option V
  expires_at : Int
  filing_type : String

/-- The canonical key: `[func.__name__, args, sorted(kwargs.items())]`. -/
def CacheKey (α : Type) : Type := String × List α × List (String × α)

instance (α : Type) [DecidableEq α] : DecidableEq (CacheKey α) := by
  unfold CacheKey; infer_instance

/-- `Cache.cache`, an association list keyed by canonical key parts. -/
def CacheState (α V : Type) : Type := List (CacheKey α × CacheEntry V)

/-- Association-list lookup (Python dict membership + access). -/
def assocFind {κ β : Type} [DecidableEq κ] : List (κ × β) → κ → Option β
  | [], _ => none
  | p :: r, k => if p.1 = k then some p.2 else assocFind r k

/-- Association-list deletion (Python `del`). -/
def assocErase {κ β : Type} [DecidableEq κ] : List (κ × β) → κ → List (κ × β)
  | [], _ => []
  | p :: r, k => if p.1 = k then r else p :: assocErase r k

/-- Association-list update-or-insert (Python dict assignment). -/
def assocPut {κ β : Type} [DecidableEq κ] : List (κ × β) → κ → β → List (κ × β)
  | [], k, v => [(k, v)]
  | p :: r, k, v => if p.1 = k then (k, v) :: r else p :: assocPut r k v

/-- Embedding of `Cache.get` (`utils.py`, lines 74-88): return the stored
value while unexpired, and lazily evict an expired entry.  The returned
state is the cache after the lookup. -/
def cacheGet {α V : Type} [DecidableEq α] (st : CacheState α V) (key : CacheKey α)
    (now : Int) : Option V × CacheState α V :=
  match assocFind st key with
  | some e => if now < e.expires_at then (e.value, st) else (none, assocErase st key)
  | none => (none, st)

/-- Embedding of `Cache.set` (`utils.py`, lines 90-100). -/
def cacheSet {α V : Type} [DecidableEq α] (st : CacheState α V) (key : CacheKey α)
    (value : Option V) (filing_type : String) (now : Int) : CacheState α V :=
  assocPut st key ⟨value, now + default_ttl filing_type, filing_type⟩

/-- Lexicographic (code-point) string order, Python's `str` comparison. -/
def strLeB : List Char → List Char → Bool
  | [], _ => true
  | _ :: _, [] => false
  | c :: cs, d :: ds => if c = d then strLeB cs ds else decide (c < d)

theorem strLeB_total : ∀ l1 l2 : List Char, strLeB l1 l2 = true ∨ strLeB l2 l1 = true
  | [], l2 => by left; rfl
  | c :: cs, [] => by right; rfl
  | c :: cs, d :: ds => by
    by_cases h : c = d
    · subst h
      simpa [strLeB] using strLeB_total cs ds
    · rcases lt_or_gt_of_ne h with hlt | hgt
      · left; simp [strLeB, h, hlt]
      · right; simp [strLeB, Ne.symm h, hgt]

theorem strLeB_trans : ∀ l1 l2 l3 : List Char,
    strLeB l1 l2 = true → strLeB l2 l3 = true → strLeB l1 l3 = true
  | [], _, _, _, _ => rfl
  | c :: cs, [], l3, h12, _ => by simp [strLeB] at h12
  | c :: cs, d :: ds, [], _, h23 => by simp [strLeB] at h23
  | c :: cs, d :: ds, e :: es, h12, h23 => by
    by_cases hcd : c = d
    · subst hcd
      by_cases hce : c = e
      · subst hce
        simp only [strLeB, if_pos rfl] at h12 h23 ⊢
        exact strLeB_trans cs ds es h12 h23
      · simpa [strLeB, hce] using h23
    · by_cases hde : d = e
      · subst hde
        simpa [strLeB, hcd] using h12
      · simp only [strLeB, if_neg hcd, decide_eq_true_eq] at h12
        simp only [strLeB, if_neg hde, decide_eq_true_eq] at h23
        have hce : c ≠ e := fun h => absurd (h ▸ h12) (lt_asymm h23)
        simp only [strLeB, if_neg hce, decide_eq_true_eq]
        exact lt_trans h12 h23

theorem strLeB_antisymm : ∀ l1 l2 : List Char,
    strLeB l1 l2 = true → strLeB l2 l1 = true → l1 = l2
  | [], [], _, _ => rfl
  | [], _ :: _, _, h21 => by simp [strLeB] at h21
  | _ :: _, [], h12, _ => by simp [strLeB] at h12
  | c :: cs, d :: ds, h12, h21 => by
    by_cases hcd : c = d
    · subst hcd
      simp only [strLeB, if_pos rfl] at h12 h21
      exact congrArg (c :: ·) (strLeB_antisymm cs ds h12 h21)
    · simp only [strLeB, if_neg hcd, decide_eq_true_eq] at h12
      simp only [strLeB, if_neg (Ne.symm hcd), decide_eq_true_eq] at h21
      exact absurd h12 (lt_asymm h21)

/-- Sort order used by `sorted(kwargs.items())`: Python tuples compare by
first component first, and keyword keys are distinct, so only the keys
decide. -/
def kwLe {α : Type} (a b : String × α) : Prop :=
  strLeB a.1.toList b.1.toList = true

instance {α : Type} : DecidableRel (@kwLe α) :=
  fun a b => inferInstanceAs (Decidable (strLeB a.1.toList b.1.toList = true))

instance {α : Type} : IsTotal (String × α) kwLe :=
  ⟨fun a b => strLeB_total a.1.toList b.1.toList⟩

instance {α : Type} : IsTrans (String × α) kwLe :=
  ⟨fun _ _ _ h1 h2 => strLeB_trans _ _ _ h1 h2⟩

/-- `key_parts = [func.__name__, args, sorted(kwargs.items())]` as built by
the `cached` wrapper (`utils.py`, line 118), followed by
`Cache._get_cache_key`'s deterministic serialization. -/
def cacheKeyParts {α : Type} (fname : String) (args : List α)
    (kwargs : List (String × α)) : CacheKey α :=
  (fname, args, kwargs.insertionSort kwLe)

/-- Embedding of one call through the `cached(filing_type)` decorator
(`utils.py`, lines 112-131).  Returns the result, the cache state after the
call, and whether the wrapped function was actually invoked.  Note the
wrapper treats a cached `None` as a miss (`if cached_value is not None`). -/
def cachedCall {α V : Type} [DecidableEq α] (filing_type fname : String)
    (args : List α) (kwargs : List (String × α)) (compute : Unit → Option V)
    (st : CacheState α V) (now : Int) : Option V × CacheState α V × Bool :=
  let key := cacheKeyParts fname args kwargs
  match cacheGet st key now with
  | (some v, st1) => (some v, st1, false)
  | (none, st1) =>
    let r := compute ()
    (r, cacheSet st1 key r filing_type now, true)

/-! ### `utils.py` : parsing helpers used by the Form 4 parser -/

/-- `normalize_cik` (`utils.py`, lines 216-221): `re.sub(r'\D', '', str(cik))`
zero-filled to 10 digits.  `str(None) = "None"` has no digits. -/
def normalize_cik (cik : Option String) : String :=
  let s := match cik with | none => "None" | some t => t
  let digits := s.toList.filter Char.isDigit
  (List.replicate (10 - digits.length) '0' ++ digits).asString

/-- Value of a digit string. -/
def digitsVal (ds : List Char) : Nat :=
  ds.foldl (fun n c => 10 * n + (c.toNat - 48)) 0

/-- The exponent tail of a float literal: `[eE][+-]?digits` or nothing;
returns the power of ten (numerator scale, denominator scale), or `none`
when the tail is not a valid exponent. -/
def floatExpTail : List Char → Option (Nat × Nat)
  | [] => some (1, 1)
  | c :: r =>
    if c = 'e' ∨ c = 'E' then
      let (neg, r1) : Bool × List Char :=
        match r with
        | '+' :: t => (false, t)
        | '-' :: t => (true, t)
        | t => (false, t)
      let ds := r1.takeWhile Char.isDigit
      let rest := r1.dropWhile Char.isDigit
      if ds = [] ∨ rest ≠ [] then none
      else if neg then some (1, 10 ^ digitsVal ds) else some (10 ^ digitsVal ds, 1)
    else none

/-- Model of Python `float(s)` on decimal literals, as an exact rational.
Whitespace is stripped by `float` itself; non-finite literals (`inf`,
`nan`) and underscore separators fall outside the rational embedding and
are mapped to a parse failure. -/
def pyFloat (l : List Char) : Option ℚ :=
  let l := stripWs l
  let (sgn, l1) : Int × List Char :=
    match l with
    | '+' :: r => (1, r)
    | '-' :: r => (-1, r)
    | r => (1, r)
  let ip := l1.takeWhile Char.isDigit
  let rest := l1.dropWhile Char.isDigit
  match rest with
  | '.' :: r =>
    let fp := r.takeWhile Char.isDigit
    let r1 := r.dropWhile Char.isDigit
    if ip = [] ∧ fp = [] then none
    else
      (floatExpTail r1).map fun en =>
        mkRat (sgn * (digitsVal ip * 10 ^ fp.length + digitsVal fp) * en.1)
          (10 ^ fp.length * en.2)
  | _ =>
    if ip = [] then none
    else (floatExpTail rest).map fun en => mkRat (sgn * digitsVal ip * en.1) en.2

/-- `clean_number` (`utils.py`, lines 191-213) on the string/None case (the
Form 4 parser always feeds it `_get_text` results): strip, drop `,`/`$`/`%`,
turn `(x)` into `-x`, then `float`. -/
def clean_number (v : Option String) : Option ℚ :=
  match v with
  | none => none
  | some s =>
    let c0 := stripWs s.toList
    let c1 := c0.filter fun c => ¬(c = ',' ∨ c = '$' ∨ c = '%')
    let c2 :=
      match c1 with
      | '(' :: r => if r ≠ [] ∧ r.getLast? = some ')' then '-' :: r.dropLast else c1
      | _ => c1
    pyFloat c2

/-- `parse_date` (`utils.py`, lines 134-158): the empty string is rejected by
the guard; otherwise the `datetime.strptime` format loop is the oracle
`pdRaw`, returning a day ordinal. -/
def parse_date (pdRaw : String → Option Int) (s : String) : Option Int :=
  if s = "" then none else pdRaw s

/-! ### `form4_parser.py` : data model -/

/-- `models.TransactionType`. -/
inductive TransactionType : Type
  | purchase | sale | gift | conversion | exercise | other
deriving DecidableEq

/-- `models.OwnershipType`. -/
inductive OwnershipType : Type
  | direct | indirect
deriving DecidableEq

/-- `models.InsiderTransaction`.  `company_cik` is optional because the
tag-soup fallback can construct the record with `company_cik = None`. -/
structure InsiderTransaction : Type where
  insider_name : String
  insider_title : Option String
  company_name : String
  company_cik : Option String
  ticker : Option String
  transaction_date : Option Int
  transaction_type : TransactionType
  security_title : String
  shares : ℚ
  price_per_share : Option ℚ
  total_value : Option ℚ
  ownership_type : OwnershipType
  shares_owned_after : Option ℚ
  filing_date : Int
  accession_number : String
  form_type : String
deriving DecidableEq

/-- `Form4Parser.TRANSACTION_CODE_MAP`. -/
def TRANSACTION_CODE_MAP : List (String × TransactionType) :=
  [("P", .purchase), ("S", .sale), ("G", .gift), ("C", .conversion),
   ("M", .exercise), ("F", .sale), ("D", .sale), ("A", .purchase),
   ("J", .other), ("K", .other), ("L", .other), ("U", .other),
   ("V", .other), ("W", .other), ("X", .exercise), ("Z", .other)]

/-- `TRANSACTION_CODE_MAP.get(trans_code, TransactionType.OTHER)`; the code
may be `None` when `_get_text` found nothing. -/
def codeLookup (c : Option String) : TransactionType :=
  match c with
  | none => .other
  | some s =>
    match TRANSACTION_CODE_MAP.find? (fun p => p.1 == s) with
    | some p => p.2
    | none => .other

/-! ### An `xml.etree.ElementTree` / `BeautifulSoup` element model

`fromstring` and `BeautifulSoup` are external parsers; their output trees
are modelled by `XmlElem` and both parsers are oracle parameters of type
`String → Option XmlElem` (`none` = the library raised).  `text` is the
element's text content (`""` models Python `None`). -/

inductive XmlElem : Type where
  | mk : String → String → List XmlElem → XmlElem

/-- Tag name. -/
def XmlElem.tag : XmlElem → String
  | .mk t _ _ => t

/-- Text content. -/
def XmlElem.text : XmlElem → String
  | .mk _ x _ => x

/-- Child elements. -/
def XmlElem.children : XmlElem → List XmlElem
  | .mk _ _ cs => cs

mutual
/-- All proper descendants in document (pre-)order, as iterated by
`.//`-paths and by BeautifulSoup's `find`/`find_all`. -/
def XmlElem.descendants : XmlElem → List XmlElem
  | .mk _ _ cs => XmlElem.descendantsList cs

def XmlElem.descendantsList : List XmlElem → List XmlElem
  | [] => []
  | c :: cs => c :: (XmlElem.descendants c ++ XmlElem.descendantsList cs)
end

/-- Python `Element.__bool__`: an element is truthy iff it has children. -/
def elemTruthy (e : XmlElem) : Bool := !e.children.isEmpty

/-- One child step of an `ElementTree` path. -/
def selectSeg (es : List XmlElem) (seg : String) : List XmlElem :=
  es.flatMap fun x => x.children.filter (fun c => c.tag == seg)

/-- Path test for a leading `.//`. -/
def isDeepPath (path : String) : Bool := ['.', '/', '/'].isPrefixOf path.toList

/-- `element.findall(path)` for the path shapes the parser uses
(`"tag"`, `"a/b"`, `".//tag"`, `".//a/b"`). -/
def findall (e : XmlElem) (path : String) : List XmlElem :=
  let pl := path.toList
  if isDeepPath path then
    match (splitOnChar '/' (pl.drop 3)).map List.asString with
    | [] => []
    | s0 :: rest =>
      rest.foldl selectSeg ((XmlElem.descendants e).filter (fun x => x.tag == s0))
  else ((splitOnChar '/' pl).map List.asString).foldl selectSeg [e]

/-- `element.find(path)`. -/
def findFirst (e : XmlElem) (path : String) : Option XmlElem :=
  (findall e path).head?

/-- Embedding of `Form4Parser._get_text` (`form4_parser.py`, lines 510-526):
returns the stripped text when the element is found with truthy text,
retrying with a `.//` path, else the default. -/
def getTextEl (e : Option XmlElem) (path : String) (dflt : Option String) :
    Option String :=
  match e with
  | none => dflt
  | some el =>
    match findFirst el path with
    | some f =>
      if f.text ≠ "" then some (stripWs f.text.toList).asString
      else
        if isDeepPath path = false then
          match findFirst el (".//" ++ path) with
          | some g => if g.text ≠ "" then some (stripWs g.text.toList).asString else dflt
          | none => dflt
        else dflt
    | none =>
      if isDeepPath path = false then
        match findFirst el (".//" ++ path) with
        | some g => if g.text ≠ "" then some (stripWs g.text.toList).asString else dflt
        | none => dflt
      else dflt

/-- Python string truthiness of an optional string. -/
def pyTruthyStr : Option String → Bool
  | none => false
  | some s => s ≠ ""

/-- Python `a or b` on optional strings. -/
def pyOrStr (a b : Option String) : Option String :=
  if pyTruthyStr a then a else b

/-! ### `form4_parser.py` : filing-level context -/

/-- The fields of the `filing_info` dict once
`_extract_filing_info` has succeeded. -/
structure FilingInfo : Type where
  company_name : String
  company_cik : String
  ticker : Option String
  insider_name : String
  insider_title : Option String
  period_of_report : Option Int
  filing_date : Int
  form_type : String

/-- Embedding of `Form4Parser._extract_filing_info` (`form4_parser.py`,
lines 105-164).  `pdRaw` is the `strptime` oracle behind `parse_date` and
`now` models `datetime.now()`. -/
def _extract_filing_info (pdRaw : String → Option Int) (now : Int)
    (root : XmlElem) : Option FilingInfo :=
  let issuer := findFirst root ".//issuer"
  let company_name := getTextEl issuer "issuerName" none
  let owner :=
    match findFirst root ".//reportingOwner" with
    | some o => some o
    | none => findFirst root "reportingOwner"
  let ownerId :=
    match owner with
    | none => none
    | some o =>
      match findFirst o ".//reportingOwnerId" with
      | some oi => some oi
      | none => findFirst o "reportingOwnerId"
  let insider_name :=
    match ownerId with
    | none => none
    | some oi =>
      pyOrStr (getTextEl (some oi) "rptOwnerName" none)
        (pyOrStr (getTextEl (some oi) "reportingOwnerName" none)
          (pyOrStr (getTextEl (some oi) ".//rptOwnerName" none)
            (getTextEl (some oi) ".//reportingOwnerName" none)))
  let insider_title :=
    match owner with
    | none => none
    | some o =>
      match findFirst o ".//reportingOwnerRelationship" with
      | none => none
      | some rel =>
        let t1 := if getTextEl (some rel) "isDirector" none = some "1" then ["Director"] else []
        let t2 :=
          if getTextEl (some rel) "isOfficer" none = some "1" then
            match getTextEl (some rel) "officerTitle" none with
            | some t => if t ≠ "" then [t] else []
            | none => []
          else []
        let t3 := if getTextEl (some rel) "isTenPercentOwner" none = some "1" then ["10% Owner"] else []
        let titles := t1 ++ t2 ++ t3
        if titles ≠ [] then some (String.intercalate ", " titles) else none
  if pyTruthyStr company_name ∧ pyTruthyStr insider_name then
    some
      { company_name := company_name.getD ""
        company_cik := normalize_cik (getTextEl issuer "issuerCik" none)
        ticker := getTextEl issuer "issuerTradingSymbol" none
        insider_name := insider_name.getD ""
        insider_title := insider_title
        period_of_report :=
          match getTextEl (some root) ".//periodOfReport" none with
          | some p => if p ≠ "" then parse_date pdRaw p else none
          | none => none
        filing_date := now
        form_type := (getTextEl (some root) ".//documentType" (some "4")).getD "4" }
  else none

/-! ### `form4_parser.py` : per-element transaction parsing -/

/-- Embedding of `Form4Parser._parse_non_derivative_transaction`
(`form4_parser.py`, lines 217-289). -/
def _parse_non_derivative_transaction (pdRaw : String → Option Int)
    (trans_elem : XmlElem) (info : FilingInfo) (accession_number : String) :
    Option InsiderTransaction :=
  let security_title := getTextEl (some trans_elem) ".//securityTitle/value" none
  if pyTruthyStr security_title = false then none
  else
    match findFirst trans_elem ".//transactionAmounts" with
    | none => none
    | some trans_amounts =>
      match clean_number (getTextEl (some trans_amounts) ".//transactionShares/value" none) with
      | none => none
      | some shares =>
        let price_per_share :=
          clean_number (getTextEl (some trans_amounts) ".//transactionPricePerShare/value" none)
        let trans_date :=
          match getTextEl (some trans_elem) ".//transactionDate/value" none with
          | some d => if d ≠ "" then parse_date pdRaw d else info.period_of_report
          | none => info.period_of_report
        let trans_code :=
          match findFirst trans_elem ".//transactionCoding" with
          | some tc =>
            if elemTruthy tc then getTextEl (some tc) ".//transactionCode" none else some "P"
          | none => some "P"
        let shares_owned_after : Option ℚ :=
          match findFirst trans_elem ".//postTransactionAmounts" with
          | some pt =>
            if elemTruthy pt then
              clean_number (getTextEl (some pt) ".//sharesOwnedFollowingTransaction/value" none)
            else some 0
          | none => some 0
        let ownership_type :=
          match findFirst trans_elem ".//ownershipNature" with
          | none => OwnershipType.direct
          | some ow =>
            match getTextEl (some ow) ".//directOrIndirectOwnership/value" none with
            | some di => if di ≠ "" ∧ upperStr di = "I" then .indirect else .direct
            | none => .direct
        let total_value : Option ℚ :=
          match price_per_share with
          | some p => if p ≠ 0 then some (shares * p) else none
          | none => none
        some
          { insider_name := info.insider_name
            insider_title := info.insider_title
            company_name := info.company_name
            company_cik := some info.company_cik
            ticker := info.ticker
            transaction_date := trans_date
            transaction_type := codeLookup trans_code
            security_title := security_title.getD ""
            shares := shares
            price_per_share := price_per_share
            total_value := total_value
            ownership_type := ownership_type
            shares_owned_after := shares_owned_after
            filing_date := info.filing_date
            accession_number := accession_number
            form_type := info.form_type }

/-- Embedding of `Form4Parser._parse_non_derivative_holding`
(`form4_parser.py`, lines 291-345). -/
def _parse_non_derivative_holding (holding_elem : XmlElem) (info : FilingInfo)
    (accession_number : String) : Option InsiderTransaction :=
  let security_title := getTextEl (some holding_elem) ".//securityTitle/value" none
  if pyTruthyStr security_title = false then none
  else
    match findFirst holding_elem ".//postTransactionAmounts" with
    | none => none
    | some pt =>
      match clean_number (getTextEl (some pt) ".//sharesOwnedFollowingTransaction/value" none) with
      | none => none
      | some shares_owned =>
        let ownership_type :=
          match findFirst holding_elem ".//ownershipNature" with
          | none => OwnershipType.direct
          | some ow =>
            match getTextEl (some ow) ".//directOrIndirectOwnership/value" none with
            | some di => if di ≠ "" ∧ upperStr di = "I" then .indirect else .direct
            | none => .direct
        some
          { insider_name := info.insider_name
            insider_title := info.insider_title
            company_name := info.company_name
            company_cik := some info.company_cik
            ticker := info.ticker
            transaction_date := info.period_of_report
            transaction_type := .other
            security_title := security_title.getD ""
            shares := 0
            price_per_share := none
            total_value := none
            ownership_type := ownership_type
            shares_owned_after := some shares_owned
            filing_date := info.filing_date
            accession_number := accession_number
            form_type := info.form_type }

/-- Python `a or b` on an optional number (`price_per_share or
conversion_price`): `None` and `0.0` are falsy. -/
def pyOrQ (a b : Option ℚ) : Option ℚ :=
  match a with
  | some x => if x ≠ 0 then some x else b
  | none => b

/-- Embedding of `Form4Parser._parse_derivative_transaction`
(`form4_parser.py`, lines 374-446). -/
def _parse_derivative_transaction (pdRaw : String → Option Int)
    (trans_elem : XmlElem) (info : FilingInfo) (accession_number : String) :
    Option InsiderTransaction :=
  let security_title := getTextEl (some trans_elem) ".//securityTitle/value" none
  if pyTruthyStr security_title = false then none
  else
    let conversion_price :=
      clean_number (getTextEl (some trans_elem) ".//conversionOrExercisePrice/value" none)
    match findFirst trans_elem ".//transactionAmounts" with
    | none => none
    | some trans_amounts =>
      match clean_number (getTextEl (some trans_amounts) ".//transactionShares/value" none) with
      | none => none
      | some shares =>
        let price_per_share :=
          clean_number (getTextEl (some trans_amounts) ".//transactionPricePerShare/value" none)
        let trans_date :=
          match getTextEl (some trans_elem) ".//transactionDate/value" none with
          | some d => if d ≠ "" then parse_date pdRaw d else info.period_of_report
          | none => info.period_of_report
        let trans_code :=
          match findFirst trans_elem ".//transactionCoding" with
          | some tc =>
            if elemTruthy tc then getTextEl (some tc) ".//transactionCode" none else some "M"
          | none => some "M"
        let underlying_shares : ℚ :=
          match findFirst trans_elem ".//underlyingSecurity" with
          | none => 0
          | some u =>
            match clean_number (getTextEl (some u) ".//underlyingSecurityShares/value" none) with
            | some q => if q ≠ 0 then q else 0
            | none => 0
        let total_value : Option ℚ :=
          match price_per_share with
          | some p => if p ≠ 0 then some (shares * p) else none
          | none => none
        some
          { insider_name := info.insider_name
            insider_title := info.insider_title
            company_name := info.company_name
            company_cik := some info.company_cik
            ticker := info.ticker
            transaction_date := trans_date
            transaction_type := codeLookup trans_code
            security_title := security_title.getD "" ++ " (Derivative)"
            shares := shares
            price_per_share := pyOrQ price_per_share conversion_price
            total_value := total_value
            ownership_type := .direct
            shares_owned_after := some underlying_shares
            filing_date := info.filing_date
            accession_number := accession_number
            form_type := info.form_type }

/-- Embedding of `Form4Parser._extract_non_derivative_transactions`
(`form4_parser.py`, lines 166-215): per-element failures are skipped, and
holdings are parsed only when no transaction was extracted. -/
def _extract_non_derivative_transactions (pdRaw : String → Option Int)
    (root : XmlElem) (info : FilingInfo) (accession_number : String) :
    List InsiderTransaction :=
  let tblOpt :=
    match findFirst root ".//nonDerivativeTable" with
    | some t => some t
    | none => findFirst root "nonDerivativeTable"
  match tblOpt with
  | none => []
  | some tbl =>
    let trans_elements :=
      let e1 := findall tbl ".//nonDerivativeTransaction"
      if e1.isEmpty then findall tbl "nonDerivativeTransaction" else e1
    let transactions :=
      trans_elements.filterMap fun e =>
        _parse_non_derivative_transaction pdRaw e info accession_number
    if transactions.isEmpty then
      (findall tbl ".//nonDerivativeHolding").filterMap fun e =>
        _parse_non_derivative_holding e info accession_number
    else transactions

/-- Embedding of `Form4Parser._extract_derivative_transactions`
(`form4_parser.py`, lines 347-372). -/
def _extract_derivative_transactions (pdRaw : String → Option Int)
    (root : XmlElem) (info : FilingInfo) (accession_number : String) :
    List InsiderTransaction :=
  match findFirst root ".//derivativeTable" with
  | none => []
  | some tbl =>
    (findall tbl ".//derivativeTransaction").filterMap fun e =>
      _parse_derivative_transaction pdRaw e info accession_number

/-! ### `form4_parser.py` : namespace stripping and the tag-soup fallback -/

/-- Try to match `xmlns[^=]*="[^"]*"` (optionally requiring a `:` after
`xmlns`) at the head of the input; on success return the remainder. -/
def xmlnsMatchAt (colon : Bool) (l : List Char) : Option (List Char) :=
  if ['x', 'm', 'l', 'n', 's'].isPrefixOf l then
    let r0 := l.drop 5
    let ok : Bool := if colon then decide (r0.head? = some ':') else true
    if ok then
      match r0.dropWhile (fun c => c ≠ '=') with
      | '=' :: '"' :: r2 =>
        match r2.dropWhile (fun c => c ≠ '"') with
        | '"' :: r4 => some r4
        | _ => none
      | _ => none
    else none
  else none

/-- One pass of `re.sub(r'xmlns[^=]*="[^"]*"', '', s)` (or the `xmlns:`
variant).  Fuel is the input length; a match always consumes at least one
character, so fuel suffices. -/
def stripXmlnsGo (colon : Bool) : Nat → List Char → List Char
  | 0, l => l
  | _ + 1, [] => []
  | f + 1, c :: rest =>
    match xmlnsMatchAt colon (c :: rest) with
    | some rem => stripXmlnsGo colon f rem
    | none => c :: stripXmlnsGo colon f rest

/-- Substring test (Python `needle in s`). -/
def containsSeq (needle : List Char) : List Char → Bool
  | [] => needle.isEmpty
  | c :: rest => needle.isPrefixOf (c :: rest) || containsSeq needle rest

/-- The namespace-stripping prelude of `parse_form4_xml` (`form4_parser.py`,
lines 62-69): both substitutions, applied only when `'xmlns'` occurs. -/
def cleanedXml (s : String) : String :=
  let l := s.toList
  if containsSeq ['x', 'm', 'l', 'n', 's'] l then
    let l1 := stripXmlnsGo false l.length l
    (stripXmlnsGo true l1.length l1).asString
  else s

/-- BeautifulSoup `Tag` truthiness: a tag is falsy when it has no contents
(neither child elements nor text). -/
def bsTruthy (e : XmlElem) : Bool := !e.children.isEmpty || e.text ≠ ""

/-- BeautifulSoup `find(name)`: first matching descendant in document
order. -/
def bsFind (soup : XmlElem) (t : String) : Option XmlElem :=
  (XmlElem.descendants soup).find? fun e => e.tag == t

/-- BeautifulSoup `find_all(name)`. -/
def bsFindAll (soup : XmlElem) (t : String) : List XmlElem :=
  (XmlElem.descendants soup).filter fun e => e.tag == t

mutual
/-- BeautifulSoup `.text`: all strings of the subtree, concatenated. -/
def bsText : XmlElem → String
  | .mk _ x cs => x ++ bsTextList cs

def bsTextList : List XmlElem → String
  | [] => ""
  | c :: cs => bsText c ++ bsTextList cs
end

/-- The per-transaction body of `_parse_with_beautifulsoup`'s loop
(`form4_parser.py`, lines 473-503); any missing tag or failing `float`
raises and the element is skipped. -/
def bsParseTransaction (pdRaw : String → Option Int)
    (company_name : String) (company_cik : Option String)
    (ticker insider_title : Option String) (insider_name : String)
    (now : Int) (accession_number : String) (trans : XmlElem) :
    Option InsiderTransaction := do
  let sharesTag ← bsFind trans "transactionShares"
  let sharesVal ← bsFind sharesTag "value"
  let shares ← pyFloat (bsText sharesVal).toList
  let price_value : Option ℚ ←
    match bsFind trans "transactionPricePerShare" with
    | some p =>
      if bsTruthy p then
        match bsFind p "value" with
        | some v =>
          if bsTruthy v then
            match pyFloat (bsText v).toList with
            | some q => some (some q)
            | none => none
          else some none
        | none => some none
      else some none
    | none => some none
  let tdTag ← bsFind trans "transactionDate"
  let tdVal ← bsFind tdTag "value"
  let codeTag ← bsFind trans "transactionCode"
  let stTag ← bsFind trans "securityTitle"
  let stVal ← bsFind stTag "value"
  let sofTag ← bsFind trans "sharesOwnedFollowingTransaction"
  let sofVal ← bsFind sofTag "value"
  let shares_owned ← pyFloat (bsText sofVal).toList
  some
    { insider_name := insider_name
      insider_title := insider_title
      company_name := company_name
      company_cik := company_cik
      ticker := ticker
      transaction_date := parse_date pdRaw (bsText tdVal)
      transaction_type := codeLookup (some (bsText codeTag))
      security_title := bsText stVal
      shares := shares
      price_per_share := price_value
      total_value :=
        match price_value with
        | some p => if p ≠ 0 then some (shares * p) else none
        | none => none
      ownership_type := .direct
      shares_owned_after := some shares_owned
      filing_date := now
      accession_number := accession_number
      form_type := "4" }

/-- `soup.find(t).text if soup.find(t) else None`, the shape of every
filing-info access in `_parse_with_beautifulsoup`. -/
def bsFieldText (soup : XmlElem) (t : String) : Option String :=
  match bsFind soup t with
  | some e => if bsTruthy e then some (bsText e) else none
  | none => none

/-- Embedding of `Form4Parser._parse_with_beautifulsoup` (`form4_parser.py`,
lines 448-508).  `bs` is the BeautifulSoup constructor oracle (`none` = it
raised, caught by the surrounding `except`). -/
def _parse_with_beautifulsoup (bs : String → Option XmlElem)
    (pdRaw : String → Option Int) (now : Int) (content : String)
    (accession_number : String) : List InsiderTransaction :=
  match bs content with
  | none => []
  | some soup =>
    let company_name := bsFieldText soup "issuerName"
    let company_cik := (bsFieldText soup "issuerCik").map fun c => normalize_cik (some c)
    let ticker := bsFieldText soup "issuerTradingSymbol"
    let insider_name := bsFieldText soup "rptOwnerName"
    if pyTruthyStr company_name = false ∨ pyTruthyStr insider_name = false then []
    else
      let insider_title := bsFieldText soup "officerTitle"
      (bsFindAll soup "nonDerivativeTransaction").filterMap
        (bsParseTransaction pdRaw (company_name.getD "") company_cik ticker
          insider_title (insider_name.getD "") now accession_number)

/-- Embedding of `Form4Parser.parse_form4_xml` (`form4_parser.py`,
lines 57-103).  `et` is the `ElementTree.fromstring` oracle (`none` = it
raised `ParseError`, the only exception it raises and the only one the
`except` clause catches); `bs` the BeautifulSoup oracle. -/
def parse_form4_xml (et bs : String → Option XmlElem)
    (pdRaw : String → Option Int) (now : Int) (xml_content : String)
    (accession_number : String) : List InsiderTransaction :=
  match et (cleanedXml xml_content) with
  | none => _parse_with_beautifulsoup bs pdRaw now xml_content accession_number
  | some root =>
    match _extract_filing_info pdRaw now root with
    | none => []
    | some info =>
      _extract_non_derivative_transactions pdRaw root info accession_number ++
        _extract_derivative_transactions pdRaw root info accession_number

/-! ### `cross_company_search.py`

`get_insider_transactions`, the full-text searcher and the company-ticker
download are network collaborators; they enter as oracle parameters
(`Except Unit _` distinguishes "raised an exception" from a value).  The
thread pool of the brute-force path only permutes the summary list ahead of
the explicit re-sort; it is modelled by the submission-order traversal. -/

/-- `date.min.toordinal()`. -/
def pyDateMin : Int := 1

/-- One transaction dict as consumed by `determine_position_status` /
`extract_current_position` (the output of `InsiderTransaction.to_dict`):
`""` models an empty/missing date string. -/
structure PyTx : Type where
  transaction_date : String
  insider_title : Option String
deriving DecidableEq

/-- All-or-nothing sequencing of parse results; `none` models the
`TypeError` raised by comparing `None` inside `max(...)`, or a `None`
propagating out of it. -/
def allSome {β : Type} : List (Option β) → Option (List β)
  | [] => some []
  | none :: _ => none
  | some a :: r => (allSome r).map (a :: ·)

/-- Embedding of `determine_position_status` (`cross_company_search.py`,
lines 450-481).  Any exception inside the `try` (empty `max`, a `None`
among the parsed dates) yields `"unknown"`. -/
def determine_position_status (pdRaw : String → Option Int)
    (transactions : List PyTx) (current_date : Int) : String :=
  if transactions.isEmpty then "unknown"
  else
    let dated := (transactions.map PyTx.transaction_date).filter (fun s => s ≠ "")
    match allSome (dated.map (parse_date pdRaw)) with
    | none => "unknown"
    | some [] => "unknown"
    | some (d :: ds) =>
      let latest := ds.foldl max d
      let days_since := current_date - latest
      if days_since ≤ 365 then "current"
      else if 730 ≤ days_since then "former"
      else "unknown"

/-- Embedding of `extract_current_position` (`cross_company_search.py`,
lines 484-500).  `max` with a key returns the first maximal element;
`t.get('insider_title', 'Director')` returns the stored value (the key is
always present in `to_dict` output, so the `'Director'` default is dead). -/
def extract_current_position (pdRaw : String → Option Int)
    (transactions : List PyTx) : Option String :=
  match transactions with
  | [] => none
  | t0 :: rest =>
    let key := fun (t : PyTx) => (parse_date pdRaw t.transaction_date).getD pyDateMin
    let latest := rest.foldl (fun cur t => if key cur < key t then t else cur) t0
    latest.insider_title

/-- Summary block of a `get_insider_transactions` result dict. -/
structure TxResult : Type where
  transaction_count : Nat
  total_shares_bought : ℚ
  total_shares_sold : ℚ
  net_shares : ℚ
  date_range : Option (String × String)
  transactions : List PyTx

/-- `CompanyInsiderSummary` (`cross_company_search.py`, lines 20-34). -/
structure CompanyInsiderSummary : Type where
  ticker : String
  company_name : String
  cik : Option String
  transaction_count : Nat
  total_shares_bought : ℚ
  total_shares_sold : ℚ
  net_shares : ℚ
  first_transaction_date : Option Int
  last_transaction_date : Option Int
  current_position : Option String
  position_status : String

/-- One company record returned by
`SECFullTextSearcher.get_companies_for_person`. -/
structure FTCompany : Type where
  ticker : Option String
  company_name : String
  cik : Option String
  filing_count : Nat
  first_filing : Option String
  last_filing : Option String

/-- One record of the SEC `company_tickers.json` snapshot. -/
structure BruteCompany : Type where
  ticker : String
  title : String
  cik_str : String

/-- The full-text loop body of `get_all_insider_companies`
(`cross_company_search.py`, lines 158-212): skip falsy tickers; on a
successful detailed lookup with enough transactions build a verified
summary; when the lookup raises, fall back to a degraded summary from the
index metadata. -/
def ftCompanyStep (pdRaw : String → Option Int) (today : Int)
    (min_transactions : Nat) (getTx : String → Except Unit (Option TxResult))
    (ci : FTCompany) : Option CompanyInsiderSummary :=
  match ci.ticker with
  | none => none
  | some tk =>
    if tk = "" then none
    else
      match getTx tk with
      | .ok (some r) =>
        if min_transactions ≤ r.transaction_count then
          some
            { ticker := tk
              company_name := ci.company_name
              cik := ci.cik
              transaction_count := r.transaction_count
              total_shares_bought := r.total_shares_bought
              total_shares_sold := r.total_shares_sold
              net_shares := r.net_shares
              first_transaction_date := r.date_range.bind fun fl => parse_date pdRaw fl.1
              last_transaction_date := r.date_range.bind fun fl => parse_date pdRaw fl.2
              current_position := extract_current_position pdRaw r.transactions
              position_status := determine_position_status pdRaw r.transactions today }
        else none
      | .ok none => none
      | .error _ =>
        if min_transactions ≤ ci.filing_count then
          some
            { ticker := tk
              company_name := ci.company_name
              cik := ci.cik
              transaction_count := ci.filing_count
              total_shares_bought := 0
              total_shares_sold := 0
              net_shares := 0
              first_transaction_date := ci.first_filing.bind (parse_date pdRaw)
              last_transaction_date := ci.last_filing.bind (parse_date pdRaw)
              current_position := some "Unknown"
              position_status := "unknown" }
        else none

/-- `search_company` of the brute-force path (`cross_company_search.py`,
lines 245-290); exceptions make the worker yield nothing. -/
def bruteCompanyStep (pdRaw : String → Option Int) (today : Int)
    (min_transactions : Nat) (getTx : String → Except Unit (Option TxResult))
    (c : BruteCompany) : Option CompanyInsiderSummary :=
  let tk := (stripWs c.ticker.toList).asString
  if tk = "" then none
  else
    match getTx tk with
    | .error _ => none
    | .ok none => none
    | .ok (some r) =>
      if min_transactions ≤ r.transaction_count then
        some
          { ticker := tk
            company_name := (stripWs c.title.toList).asString
            cik := some (stripWs c.cik_str.toList).asString
            transaction_count := r.transaction_count
            total_shares_bought := r.total_shares_bought
            total_shares_sold := r.total_shares_sold
            net_shares := r.net_shares
            first_transaction_date := r.date_range.bind fun fl => parse_date pdRaw fl.1
            last_transaction_date := r.date_range.bind fun fl => parse_date pdRaw fl.2
            current_position := extract_current_position pdRaw r.transactions
            position_status := determine_position_status pdRaw r.transactions today }
      else none

/-- Sorting key: `x.last_transaction_date or date.min`. -/
def lastDateKey (c : CompanyInsiderSummary) : Int :=
  c.last_transaction_date.getD pyDateMin

/-- Stable descending insertion for the final
`companies_with_activity.sort(..., reverse=True)`. -/
def sortInsertDesc (x : CompanyInsiderSummary) :
    List CompanyInsiderSummary → List CompanyInsiderSummary
  | [] => [x]
  | y :: ys => if lastDateKey y < lastDateKey x then x :: y :: ys else y :: sortInsertDesc x ys

/-- Sort by most recent activity, descending. -/
def sortByLastDesc (l : List CompanyInsiderSummary) : List CompanyInsiderSummary :=
  l.foldr sortInsertDesc []

/-- The dictionary returned by `get_all_insider_companies`; fields that a
given return path leaves out of the dict are `none`/zero there. -/
structure CrossResult : Type where
  person_name : String
  search_date : Int
  search_method : String
  total_companies : Nat
  active_positions : Nat
  former_positions : Nat
  total_transactions : Nat
  companies : List CompanyInsiderSummary
  error : Option String
  message : Option String
  name_variations_searched : List String

/-- The diagnostic message attached when no companies are found
(`cross_company_search.py`, lines 380-388). -/
def noActivityMessage (person_name search_method : String) : String :=
  "No insider activity found for '" ++ person_name ++ "'. " ++
  "This could mean: " ++
  "1) The person has not filed Form 4s with the SEC, " ++
  "2) The name format doesn't match SEC records (try variations like 'LAST, FIRST' or 'LAST FIRST MIDDLE'), " ++
  "3) The person may not be a public company insider. " ++
  "Search method used: " ++ search_method

/-- The common tail of `get_all_insider_companies` (filter, sort, summary
statistics, result dict, no-activity diagnostics;
`cross_company_search.py`, lines 319-393). -/
def crossFinish (person_name : String) (today : Int) (include_former : Bool)
    (used_fulltext : Bool) (found : List CompanyInsiderSummary) : CrossResult :=
  let cs1 :=
    if include_former then found
    else found.filter fun c => c.position_status = "current" ∨ c.position_status = "unknown"
  let cs2 := sortByLastDesc cs1
  let method := if used_fulltext then "fulltext" else "brute-force"
  let base : CrossResult :=
    { person_name := person_name
      search_date := today
      search_method := method
      total_companies := cs2.length
      active_positions := (cs2.filter fun c => c.position_status = "current").length
      former_positions := (cs2.filter fun c => c.position_status = "former").length
      total_transactions := (cs2.map (·.transaction_count)).sum
      companies := cs2
      error := none
      message := none
      name_variations_searched := [] }
  if cs2.length = 0 then
    { base with
        message := some (noActivityMessage person_name method)
        name_variations_searched := (generate_name_variations person_name).take 5 }
  else base

/-- Embedding of `get_all_insider_companies` (`cross_company_search.py`,
lines 112-393).  `ftOutcome` is the outcome of
`SECFullTextSearcher(...).get_companies_for_person(...)` (`.error` = it
raised, triggering the brute-force fallback); `getTx` the outcome of one
`get_insider_transactions` call; `pubCompanies` the `company_tickers.json`
snapshot (empty on a failed download). -/
def get_all_insider_companies (pdRaw : String → Option Int) (today : Int)
    (person_name : String) (include_former : Bool) (min_transactions : Nat)
    (use_fulltext_search : Bool) (company_limit : Option Nat)
    (ftOutcome : Except Unit (List FTCompany))
    (getTx : String → Except Unit (Option TxResult))
    (pubCompanies : List BruteCompany) : CrossResult :=
  let ftResult : Option (List CompanyInsiderSummary) :=
    if use_fulltext_search then
      match ftOutcome with
      | .ok cs => some (cs.filterMap (ftCompanyStep pdRaw today min_transactions getTx))
      | .error _ => none
    else none
  match ftResult with
  | some found => crossFinish person_name today include_former true found
  | none =>
    if pubCompanies.isEmpty then
      { person_name := person_name
        search_date := 0
        search_method := ""
        total_companies := 0
        active_positions := 0
        former_positions := 0
        total_transactions := 0
        companies := []
        error := some "Could not retrieve public company listings"
        message := none
        name_variations_searched := [] }
    else
      let company_list :=
        match company_limit with
        | some n => if n ≠ 0 then pubCompanies.take n else pubCompanies
        | none => pubCompanies
      crossFinish person_name today include_former false
        (company_list.filterMap (bruteCompanyStep pdRaw today min_transactions getTx))

/-! ## Theorems -/

set_option maxRecDepth 20000

/-- C2 (code bug): `normalize_name` documents `"KLAPPA, GALE E" -> "gale
klappa"`, but the punctuation regex removes the comma before the
comma-reordering branch tests for it, so the branch is dead: the token
before the comma stays first, not last. -/
theorem claim2_comma_form_not_reordered :
    normalize_name "Klappa, Gale" = "klappa gale" ∧
    normalize_name "Klappa, Gale" ≠ "gale klappa" ∧
    normalize_name "KLAPPA, GALE E" = "klappa gale" := by decide

/-- C7: with the default threshold 0.8, `is_name_match` accepts
`("Gale Klappa", "KLAPPA GALE E")` (token-set overlap 2/2) and rejects
`("Gale Klappa", "John Smith")` (sequence similarity 2/21 below 0.8). -/
theorem claim7_match_examples :
    is_name_match "Gale Klappa" "KLAPPA GALE E" (mkRat 8 10) = true ∧
    is_name_match "Gale Klappa" "John Smith" (mkRat 8 10) = false := by decide

/-- C4: with `d` days between today and the most recent parsed transaction
date, the status classifier returns `"current"` for `d ≤ 365`, `"former"`
for `d ≥ 730`, `"unknown"` for `365 < d < 730`, and `"unknown"` on an empty
transaction list. -/
theorem claim4_status_classification (pdRaw : String → Option Int)
    (ts : List PyTx) (today d : Int) (ds : List Int)
    (h : allSome (((ts.map PyTx.transaction_date).filter (fun s => s ≠ "")).map
          (parse_date pdRaw)) = some (d :: ds))
    (hne : ts ≠ []) :
    (today - ds.foldl max d ≤ 365 →
        determine_position_status pdRaw ts today = "current") ∧
    (730 ≤ today - ds.foldl max d →
        determine_position_status pdRaw ts today = "former") ∧
    (365 < today - ds.foldl max d → today - ds.foldl max d < 730 →
        determine_position_status pdRaw ts today = "unknown") ∧
    determine_position_status pdRaw [] today = "unknown" := by
  have hts : ts.isEmpty = false := by
    cases ts with
    | nil => exact absurd rfl hne
    | cons a l => rfl
  refine ⟨?_, ?_, ?_, by simp [determine_position_status]⟩ <;>
    simp only [determine_position_status, hts, Bool.false_eq_true, if_false, h] <;>
    intros <;> split <;> first | rfl | omega | (split <;> first | rfl | omega)

/-- C4 witness: a single transaction 30 days old is `"current"`, and the
empty list is `"unknown"`. -/
theorem claim4_witness :
    determine_position_status (fun s => if s = "2023-06-01" then some 100 else none)
      [⟨"2023-06-01", none⟩] 130 = "current" ∧
    determine_position_status (fun s => if s = "2023-06-01" then some 100 else none)
      [] 130 = "unknown" := by
  have h := claim4_status_classification
    (fun s => if s = "2023-06-01" then some 100 else none)
    [⟨"2023-06-01", none⟩] 130 100 [] (by decide) (by decide)
  exact ⟨h.1 (by decide), h.2.2.2⟩

/-- `crossFinish` never reports an error. -/
theorem crossFinish_error_eq_none (pn : String) (today : Int) (inc ft : Bool)
    (found : List CompanyInsiderSummary) :
    (crossFinish pn today inc ft found).error = none := by
  simp only [crossFinish]
  split <;> split <;> rfl

/-- C6 (amended): the cross-company search never raises — every failure is
an ordinary result — and it returns an error-marked result exactly when the
full-text strategy is disabled or raised and the public-company directory
snapshot is empty.  The person name (in particular the empty name) plays no
role in failing: an empty name flows through like any other and produces an
ordinary result. -/
theorem claim6_failure_surface (pdRaw : String → Option Int) (today : Int)
    (person_name : String) (include_former : Bool) (min_transactions : Nat)
    (useFT : Bool) (climit : Option Nat) (ftO : Except Unit (List FTCompany))
    (getTx : String → Except Unit (Option TxResult)) (pub : List BruteCompany) :
    (get_all_insider_companies pdRaw today person_name include_former
        min_transactions useFT climit ftO getTx pub).error.isSome = true
      ↔ ((useFT = false ∨ ftO = Except.error ()) ∧ pub = []) := by
  unfold get_all_insider_companies
  cases useFT with
  | true =>
    cases ftO with
    | ok cs =>
      simp [crossFinish_error_eq_none]
    | error e =>
      cases e
      by_cases hp : pub = []
      · subst hp; simp
      · have : pub.isEmpty = false := by
          cases pub with
          | nil => exact absurd rfl hp
          | cons a l => rfl
        simp [this, hp, crossFinish_error_eq_none]
  | false =>
    by_cases hp : pub = []
    · subst hp; simp
    · have : pub.isEmpty = false := by
        cases pub with
        | nil => exact absurd rfl hp
        | cons a l => rfl
      simp [this, hp, crossFinish_error_eq_none]

/-- C6 counterexample: with an empty person name (and a perfectly healthy
index returning no hits) the operation does not fail — it returns an
ordinary zero-company result carrying the diagnostic message. -/
theorem claim6_counterexample :
    (get_all_insider_companies (fun _ => none) 0 "" true 1 true none
        (Except.ok []) (fun _ => Except.ok none) []).error = none ∧
    (get_all_insider_companies (fun _ => none) 0 "" true 1 true none
        (Except.ok []) (fun _ => Except.ok none) []).total_companies = 0 ∧
    (get_all_insider_companies (fun _ => none) 0 "" true 1 true none
        (Except.ok []) (fun _ => Except.ok none) []).message.isSome = true := by
  decide

/-! ### Cache lemmas (C5, C9) -/

theorem assocFind_put {κ β : Type} [DecidableEq κ] (st : List (κ × β)) (k : κ) (e : β) :
    assocFind (assocPut st k e) k = some e := by
  induction st with
  | nil => simp [assocPut, assocFind]
  | cons p r ih =>
    by_cases h : p.1 = k
    · simp [assocPut, h, assocFind]
    · simp [assocPut, h, assocFind, ih]

/-- A hit on an entry just written, before its TTL elapses. -/
theorem cacheGet_after_set {α V : Type} [DecidableEq α] (st : CacheState α V)
    (key : CacheKey α) (v : V) (ft : String) (now1 now2 : Int)
    (h : now2 < now1 + default_ttl ft) :
    cacheGet (cacheSet st key (some v) ft now1) key now2 =
      (some v, cacheSet st key (some v) ft now1) := by
  unfold cacheGet cacheSet
  rw [assocFind_put]
  simp [h]

/-- A miss makes `cached`'s wrapper invoke the wrapped function and store
its result. -/
theorem cachedCall_of_miss {α V : Type} [DecidableEq α] (ft fname : String)
    (args : List α) (kwargs : List (String × α)) (g : Unit → Option V)
    (st : CacheState α V) (now : Int)
    (h : (cacheGet st (cacheKeyParts fname args kwargs) now).1 = none) :
    cachedCall ft fname args kwargs g st now =
      (g (), cacheSet (cacheGet st (cacheKeyParts fname args kwargs) now).2
        (cacheKeyParts fname args kwargs) (g ()) ft now, true) := by
  rcases hq : cacheGet st (cacheKeyParts fname args kwargs) now with ⟨o, st2⟩
  rw [hq] at h
  simp only at h
  subst h
  simp only [cachedCall, hq]

/-- A non-`None` hit short-circuits the wrapper. -/
theorem cachedCall_of_hit {α V : Type} [DecidableEq α] (ft fname : String)
    (args : List α) (kwargs : List (String × α)) (g : Unit → Option V)
    (st st2 : CacheState α V) (now : Int) (v : V)
    (h : cacheGet st (cacheKeyParts fname args kwargs) now = (some v, st2)) :
    cachedCall ft fname args kwargs g st now = (some v, st2, false) := by
  simp only [cachedCall, h]

/-- C5 (amended): for a computation whose result is not `None`, two wrapped
calls with the same key within the TTL run the computation exactly once and
the second returns the stored value; once the TTL has elapsed the
computation runs again; and an entry is never returned at or after its
expiry instant — the expired entry is evicted by the lookup itself.  (The
unamended claim fails for `None`-valued computations, see the
counterexample.) -/
theorem claim5_cache_roundtrip {α V : Type} [DecidableEq α] (ft fname : String)
    (args : List α) (kwargs : List (String × α)) (v : V) (g : Unit → Option V)
    (st : CacheState α V) (now1 now2 now3 : Int)
    (h1 : (cacheGet st (cacheKeyParts fname args kwargs) now1).1 = none)
    (hin : now2 < now1 + default_ttl ft)
    (hout : now1 + default_ttl ft ≤ now3) :
    ((cachedCall ft fname args kwargs (fun _ => some v) st now1).1 = some v ∧
      (cachedCall ft fname args kwargs (fun _ => some v) st now1).2.2 = true) ∧
    (cachedCall ft fname args kwargs g
        ((cachedCall ft fname args kwargs (fun _ => some v) st now1).2.1) now2 =
      (some v, (cachedCall ft fname args kwargs (fun _ => some v) st now1).2.1, false)) ∧
    ((cachedCall ft fname args kwargs g
        ((cachedCall ft fname args kwargs (fun _ => some v) st now1).2.1) now3).2.2 = true) ∧
    (∀ (st' : CacheState α V) (k : CacheKey α) (e : CacheEntry V) (t : Int),
      assocFind st' k = some e → e.expires_at ≤ t →
      cacheGet st' k t = (none, assocErase st' k)) := by
  have hc1 := cachedCall_of_miss ft fname args kwargs (fun _ => some v) st now1 h1
  simp only at hc1
  refine ⟨⟨by rw [hc1], by rw [hc1]⟩, ?_, ?_, ?_⟩
  · rw [hc1]
    exact cachedCall_of_hit ft fname args kwargs g _ _ now2 v
      (cacheGet_after_set _ _ v ft now1 now2 hin)
  · have hexp : (cacheGet
        (cacheSet (cacheGet st (cacheKeyParts fname args kwargs) now1).2
          (cacheKeyParts fname args kwargs) (some v) ft now1)
        (cacheKeyParts fname args kwargs) now3).1 = none := by
      unfold cacheGet cacheSet
      rw [assocFind_put]
      have hlt : ¬(now3 < now1 + default_ttl ft) := by omega
      simp [hlt]
    rw [hc1]
    rw [cachedCall_of_miss ft fname args kwargs g _ now3 hexp]
  · intro st' k e t hfind hexp
    have hlt : ¬(t < e.expires_at) := by omega
    simp only [cacheGet, hfind, hlt, if_false]

/-- C5 counterexample: the claim as stated fails for a computation that
returns `None` — the wrapper treats the stored `None` as a miss
(`if cached_value is not None`) and executes the computation a second time
well within the TTL. -/
theorem claim5_counterexample :
    (cachedCall "default" "f" ([] : List Nat) [] (fun _ => (none : Option Nat))
        [] 0).2.2 = true ∧
    (cachedCall "default" "f" ([] : List Nat) [] (fun _ => (none : Option Nat))
        (cachedCall "default" "f" ([] : List Nat) []
          (fun _ => (none : Option Nat)) [] 0).2.1 1).2.2 = true ∧
    (1 : Int) < 0 + default_ttl "default" := by decide

/-- C5 witness: a `Nat`-valued computation at times 0, 1 and 14400 with the
4-hour default TTL. -/
theorem claim5_witness :
    (cachedCall "default" "f" ([] : List Nat) [] (fun _ => some (7 : Nat)) [] 0).1 =
      some 7 ∧
    (cachedCall "default" "f" ([] : List Nat) [] (fun _ => some (9 : Nat))
        (cachedCall "default" "f" ([] : List Nat) []
          (fun _ => some (7 : Nat)) [] 0).2.1 1) =
      (some 7, (cachedCall "default" "f" ([] : List Nat) []
          (fun _ => some (7 : Nat)) [] 0).2.1, false) := by
  have h := claim5_cache_roundtrip "default" "f" ([] : List Nat) [] (7 : Nat)
    (fun _ => some (9 : Nat)) [] 0 1 14400 (by decide) (by decide) (by decide)
  exact ⟨h.1.1, h.2.1⟩

/-- Two sorted kwargs lists that are permutations of one another with
distinct keys are equal. -/
theorem kwSorted_perm_eq {α : Type} :
    ∀ (l1 l2 : List (String × α)), l1.Sorted kwLe → l2.Sorted kwLe →
      l1.Perm l2 → (l1.map Prod.fst).Nodup → l1 = l2
  | [], l2, _, _, hp, _ => (hp.nil_eq).symm ▸ rfl
  | x :: xs, [], _, _, hp, _ => absurd hp.symm (by simp)
  | x :: xs, y :: ys, hs1, hs2, hp, hnd => by
    have hxmem : x ∈ y :: ys := hp.mem_iff.mp (List.mem_cons_self x xs)
    have hymem : y ∈ x :: xs := hp.mem_iff.mpr (List.mem_cons_self y ys)
    rw [List.sorted_cons] at hs1 hs2
    have hxy : x = y := by
      rcases List.mem_cons.mp hymem with h | h
      · exact h.symm
      · rcases List.mem_cons.mp hxmem with h2 | h2
        · exact h2
        · have h1 : kwLe x y := hs1.1 y h
          have h2' : kwLe y x := hs2.1 x h2
          have hkey : x.1 = y.1 := by
            have := strLeB_antisymm x.1.toList y.1.toList h1 h2'
            have hinj : x.1.toList.asString = y.1.toList.asString := by rw [this]
            cases hx : x.1
            cases hy : y.1
            rw [hx, hy] at hinj
            exact hinj
          rw [List.map_cons, List.nodup_cons] at hnd
          exact absurd (hkey ▸ (List.mem_map_of_mem Prod.fst h)) hnd.1
    subst hxy
    have htl := hp.cons_inv
    rw [List.map_cons, List.nodup_cons] at hnd
    exact congrArg (x :: ·) (kwSorted_perm_eq xs ys hs1.2 hs2.2 htl hnd.2)

/-- C9: cache-key derivation ignores keyword order — the sorted kwargs (and
hence the serialized key) agree for any permutation of distinct keyword
bindings, and the second call, issued with the permuted kwargs within the
TTL, hits the entry written by the first and does not recompute. -/
theorem claim9_key_order_independent {α : Type} [DecidableEq α] (fname : String)
    (args : List α) (kw1 kw2 : List (String × α)) (hp : kw1.Perm kw2)
    (hnd : (kw1.map Prod.fst).Nodup) :
    cacheKeyParts fname args kw1 = cacheKeyParts fname args kw2 ∧
    ∀ (V : Type) (ft : String) (v : V) (g : Unit → Option V)
      (st : CacheState α V) (now1 now2 : Int),
      (cacheGet st (cacheKeyParts fname args kw1) now1).1 = none →
      now2 < now1 + default_ttl ft →
      cachedCall ft fname args kw2 g
          ((cachedCall ft fname args kw1 (fun _ => some v) st now1).2.1) now2 =
        (some v, (cachedCall ft fname args kw1 (fun _ => some v) st now1).2.1,
          false) := by
  have hkey : cacheKeyParts fname args kw1 = cacheKeyParts fname args kw2 := by
    unfold cacheKeyParts
    have hsorted := kwSorted_perm_eq (kw1.insertionSort kwLe) (kw2.insertionSort kwLe)
      (List.sorted_insertionSort kwLe kw1) (List.sorted_insertionSort kwLe kw2)
      (((List.perm_insertionSort kwLe kw1).trans hp).trans
        (List.perm_insertionSort kwLe kw2).symm)
      (((List.perm_insertionSort kwLe kw1).map Prod.fst).nodup_iff.mpr hnd)
    rw [hsorted]
  refine ⟨hkey, ?_⟩
  intro V ft v g st now1 now2 h1 hin
  have hc1 := cachedCall_of_miss ft fname args kw1 (fun _ => some v) st now1 h1
  have hhit : cacheGet
      ((cachedCall ft fname args kw1 (fun _ => some v) st now1).2.1)
      (cacheKeyParts fname args kw2) now2 =
      (some v, (cachedCall ft fname args kw1 (fun _ => some v) st now1).2.1) := by
    rw [hc1, ← hkey]
    exact cacheGet_after_set _ _ v ft now1 now2 hin
  exact cachedCall_of_hit ft fname args kw2 g _ _ now2 v hhit

/-- C9 witness: the same two bindings supplied in either order produce the
same key, and the reordered second call hits. -/
theorem claim9_witness :
    cacheKeyParts "f" ([5] : List Nat) [("b", 1), ("a", 2)] =
      cacheKeyParts "f" ([5] : List Nat) [("a", 2), ("b", 1)] ∧
    cachedCall "form4" "f" ([5] : List Nat) [("a", 2), ("b", 1)]
        (fun _ => some (0 : Nat))
        ((cachedCall "form4" "f" ([5] : List Nat) [("b", 1), ("a", 2)]
          (fun _ => some (3 : Nat)) [] 0).2.1) 10 =
      (some 3, (cachedCall "form4" "f" ([5] : List Nat) [("b", 1), ("a", 2)]
          (fun _ => some (3 : Nat)) [] 0).2.1, false) := by
  have h := claim9_key_order_independent "f" ([5] : List Nat)
    [("b", 1), ("a", 2)] [("a", 2), ("b", 1)] (by decide) (by decide)
  exact ⟨h.1, h.2 Nat "form4" 3 (fun _ => some (0 : Nat)) [] 0 10 (by decide) (by decide)⟩

/-! ### C1 : total value -/

/-- The parsed `transactionPricePerShare` of a derivative transaction
element (the `price_per_share` local of
`_parse_derivative_transaction`). -/
def derivRawPrice (elem : XmlElem) : Option ℚ :=
  match findFirst elem ".//transactionAmounts" with
  | none => none
  | some ta => clean_number (getTextEl (some ta) ".//transactionPricePerShare/value" none)

/-- The parsed `conversionOrExercisePrice` of a derivative transaction
element. -/
def derivConvPrice (elem : XmlElem) : Option ℚ :=
  clean_number (getTextEl (some elem) ".//conversionOrExercisePrice/value" none)

/-- C1 (amended): whenever a transaction element parses into a record, the
record's total value is `q·p` for the parsed price `p` exactly when `p` is
present and nonzero, and is null when `p` is absent *or zero* (Python float
truthiness).  For non-derivative records the parsed price is the record's
`price_per_share`; a derivative record's `price_per_share` additionally
falls back to the conversion/exercise price when the parsed price is falsy,
so it can be non-null while `total_value` is null. -/
theorem claim1_total_value (pdRaw : String → Option Int) (elem : XmlElem)
    (info : FilingInfo) (acc : String) :
    (∀ rec, _parse_non_derivative_transaction pdRaw elem info acc = some rec →
      rec.total_value =
        rec.price_per_share.bind fun p => if p = 0 then none else some (rec.shares * p)) ∧
    (∀ rec, _parse_derivative_transaction pdRaw elem info acc = some rec →
      rec.total_value =
        (match derivRawPrice elem with
          | some p => if p = 0 then none else some (rec.shares * p)
          | none => none) ∧
      rec.price_per_share = pyOrQ (derivRawPrice elem) (derivConvPrice elem)) := by
  constructor
  · intro rec h
    simp only [_parse_non_derivative_transaction] at h
    split at h
    · exact absurd h (by simp)
    · split at h
      · exact absurd h (by simp)
      · split at h
        · exact absurd h (by simp)
        · injection h with h
          subst h
          simp only
          rcases clean_number (getTextEl _ ".//transactionPricePerShare/value" none) with _ | p
          · rfl
          · by_cases hp : p = 0 <;> simp [hp]
  · intro rec h
    simp only [_parse_derivative_transaction] at h
    split at h
    · exact absurd h (by simp)
    · split at h
      next heq => exact absurd h (by simp)
      next ta heq =>
        split at h
        · exact absurd h (by simp)
        · injection h with h
          subst h
          simp only [derivRawPrice, heq]
          constructor
          · rcases clean_number (getTextEl (some ta) ".//transactionPricePerShare/value" none)
              with _ | p
            · rfl
            · by_cases hp : p = 0 <;> simp [hp]
          · rfl

/-- C1 counterexample input: 100 shares at an explicit price of 0. -/
def claim1Elem : XmlElem :=
  .mk "nonDerivativeTransaction" ""
    [.mk "securityTitle" "" [.mk "value" "Common Stock" []],
     .mk "transactionAmounts" ""
       [.mk "transactionShares" "" [.mk "value" "100" []],
        .mk "transactionPricePerShare" "" [.mk "value" "0" []]]]

/-- Filing context used by the C1 inputs. -/
def claim1Info : FilingInfo :=
  { company_name := "WEC"
    company_cik := "0000000001"
    ticker := some "WEC"
    insider_name := "KLAPPA GALE E"
    insider_title := some "Director"
    period_of_report := some 100
    filing_date := 0
    form_type := "4" }

/-- C1 counterexample: a record parses with `price_per_share = 0` (not
null), yet `total_value` is null rather than `q·p = 0` — refuting both
"total_value equals q·p" and "total_value is null iff p is null". -/
theorem claim1_counterexample :
    ((_parse_non_derivative_transaction (fun _ => none) claim1Elem claim1Info "acc").map
        fun r => (r.shares, r.price_per_share, r.total_value)) =
      some (100, some 0, none) ∧
    some ((100 : ℚ) * 0) ≠ (none : Option ℚ) := by decide

/-- C1 witness input: 1000 shares at a price of 50, code `S`. -/
def claim1WElem : XmlElem :=
  .mk "nonDerivativeTransaction" ""
    [.mk "securityTitle" "" [.mk "value" "Common Stock" []],
     .mk "transactionAmounts" ""
       [.mk "transactionShares" "" [.mk "value" "1000" []],
        .mk "transactionPricePerShare" "" [.mk "value" "50" []]],
     .mk "transactionCoding" "" [.mk "transactionCode" "S" []]]

/-- The record `claim1WElem` parses to. -/
def claim1WRec : InsiderTransaction :=
  { insider_name := "KLAPPA GALE E"
    insider_title := some "Director"
    company_name := "WEC"
    company_cik := some "0000000001"
    ticker := some "WEC"
    transaction_date := some 100
    transaction_type := .sale
    security_title := "Common Stock"
    shares := 1000
    price_per_share := some 50
    total_value := some 50000
    ownership_type := .direct
    shares_owned_after := some 0
    filing_date := 0
    accession_number := "acc"
    form_type := "4" }

/-- C1 witness: the amended relation evaluated on a concrete sale of 1000
shares at 50. -/
theorem claim1_witness :
    claim1WRec.total_value =
      claim1WRec.price_per_share.bind fun p =>
        if p = 0 then none else some (claim1WRec.shares * p) :=
  (claim1_total_value (fun _ => none) claim1WElem claim1Info "acc").1 claim1WRec
    (by decide)

/-! ### C3 : extractor error handling -/

/-- C3: the extractor returns a list for every input and never lets an
exception escape — in the embedding every failure of the external parsers
is a quantified oracle outcome and the function is total.  Moreover: a
structural parse failure (`fromstring` raising `ParseError`, the only
exception it raises and the only one caught) falls back to the tag-soup
parser on the same content; an ElementTree parse whose filing info lacks
the entity or filer name yields `[]`; and the tag-soup fallback yields `[]`
when BeautifulSoup itself fails or when the issuer name or reporting-owner
name cannot be established. -/
theorem claim3_extractor_error_handling (et bs : String → Option XmlElem)
    (pdRaw : String → Option Int) (now : Int) (content acc : String) :
    (et (cleanedXml content) = none →
      parse_form4_xml et bs pdRaw now content acc =
        _parse_with_beautifulsoup bs pdRaw now content acc) ∧
    (∀ root, et (cleanedXml content) = some root →
      _extract_filing_info pdRaw now root = none →
      parse_form4_xml et bs pdRaw now content acc = []) ∧
    (bs content = none → _parse_with_beautifulsoup bs pdRaw now content acc = []) ∧
    (∀ soup, bs content = some soup →
      (pyTruthyStr (bsFieldText soup "issuerName") = false ∨
        pyTruthyStr (bsFieldText soup "rptOwnerName") = false) →
      _parse_with_beautifulsoup bs pdRaw now content acc = []) := by
  refine ⟨?_, ?_, ?_, ?_⟩
  · intro h
    simp only [parse_form4_xml, h]
  · intro root h hinfo
    simp only [parse_form4_xml, h, hinfo]
  · intro h
    simp only [_parse_with_beautifulsoup, h]
  · intro soup h hcond
    simp only [_parse_with_beautifulsoup, h]
    rw [if_pos hcond]

/-- C3 witness: with both parser oracles failing, extraction of an
arbitrary document falls through to the tag-soup parser and returns the
empty list. -/
theorem claim3_witness :
    parse_form4_xml (fun _ => none) (fun _ => none) (fun _ => none) 0 "doc" "acc" =
      _parse_with_beautifulsoup (fun _ => none) (fun _ => none) 0 "doc" "acc" ∧
    _parse_with_beautifulsoup (fun _ => none) (fun _ => none) 0 "doc" "acc" = [] := by
  have h := claim3_extractor_error_handling (fun _ => none) (fun _ => none)
    (fun _ => none) 0 "doc" "acc"
  exact ⟨h.1 rfl, h.2.2.1 rfl⟩

/-! ### C10 : similarity range -/

theorem npRun_le_left (pop : Char → Bool) :
    ∀ a b : List Char, npRun pop a b ≤ a.length
  | [], _ => by simp [npRun]
  | _ :: _, [] => by simp [npRun]
  | c :: cs, d :: ds => by
    simp only [npRun, List.length_cons]
    split
    · exact Nat.succ_le_succ (npRun_le_left pop cs ds)
    · exact Nat.zero_le _

theorem npRun_le_right (pop : Char → Bool) :
    ∀ a b : List Char, npRun pop a b ≤ b.length
  | [], _ => by simp [npRun]
  | _ :: _, [] => by simp [npRun]
  | c :: cs, d :: ds => by
    simp only [npRun, List.length_cons]
    split
    · exact Nat.succ_le_succ (npRun_le_right pop cs ds)
    · exact Nat.zero_le _

/-- The fold behind `pickBest` yields its seed or a list element. -/
theorem pickBest_cases (l : List (Nat × Nat × Nat)) :
    pickBest l = (0, 0, 0) ∨ pickBest l ∈ l := by
  unfold pickBest
  suffices h : ∀ (acc : Nat × Nat × Nat),
      l.foldl (fun best c => if best.2.2 < c.2.2 then c else best) acc = acc ∨
      l.foldl (fun best c => if best.2.2 < c.2.2 then c else best) acc ∈ l from
    h (0, 0, 0)
  induction l with
  | nil => intro acc; left; rfl
  | cons x xs ih =>
    intro acc
    rcases ih (if acc.2.2 < x.2.2 then x else acc) with h | h <;> rw [List.foldl_cons]
    · rw [h]
      split
      · right; exact List.mem_cons_self x xs
      · left; rfl
    · right; exact List.mem_cons_of_mem x h

theorem mem_blockCands {pop : Char → Bool} {a b : List Char} {t : Nat × Nat × Nat}
    (h : t ∈ blockCands pop a b) :
    t.1 < a.length ∧ t.2.1 < b.length ∧
      t.2.2 = npRun pop (a.drop t.1) (b.drop t.2.1) := by
  simp only [blockCands, List.mem_flatMap, List.mem_map, List.mem_range] at h
  obtain ⟨i, hi, j, hj, rfl⟩ := h
  exact ⟨hi, hj, rfl⟩

/-- The block found by `find_longest_match` lies inside both sequences. -/
theorem bestBlock_bounds (pop : Char → Bool) (a b : List Char) :
    (bestBlock pop a b).1 + (bestBlock pop a b).2.2 ≤ a.length ∧
    (bestBlock pop a b).2.1 + (bestBlock pop a b).2.2 ≤ b.length := by
  unfold bestBlock
  rcases pickBest_cases (blockCands pop a b) with h | h
  · rw [h]
    simp only
    have h1 := npRun_le_left (fun _ => false) a b
    have h2 := npRun_le_right (fun _ => false) a b
    simp only [List.take_zero, List.reverse_nil, List.drop_zero]
    constructor
    · simpa [runEq, npRun] using h1
    · simpa [runEq, npRun] using h2
  · rcases hpb : pickBest (blockCands pop a b) with ⟨i, j, k⟩
    rw [hpb] at h
    obtain ⟨hi, hj, hk⟩ := mem_blockCands h
    simp only at hi hj hk ⊢
    have hkla : k ≤ a.length - i := by
      rw [hk]
      have := npRun_le_left pop (a.drop i) (b.drop j)
      simpa using this
    have hklb : k ≤ b.length - j := by
      rw [hk]
      have := npRun_le_right pop (a.drop i) (b.drop j)
      simpa using this
    have he1 : runEq (a.take i).reverse (b.take j).reverse ≤ i := by
      have := npRun_le_left (fun _ => false) (a.take i).reverse (b.take j).reverse
      simp only [runEq]
      simp only [List.length_reverse, List.length_take] at this
      exact le_trans this (min_le_left _ _)
    have hr1 : runEq (a.drop (i + k)) (b.drop (j + k)) ≤ a.length - (i + k) := by
      have := npRun_le_left (fun _ => false) (a.drop (i + k)) (b.drop (j + k))
      simp only [runEq]
      simpa using this
    have hr2 : runEq (a.drop (i + k)) (b.drop (j + k)) ≤ b.length - (j + k) := by
      have := npRun_le_right (fun _ => false) (a.drop (i + k)) (b.drop (j + k))
      simp only [runEq]
      simpa using this
    have he2 : runEq (a.take i).reverse (b.take j).reverse ≤ j := by
      have := npRun_le_right (fun _ => false) (a.take i).reverse (b.take j).reverse
      simp only [runEq]
      simp only [List.length_reverse, List.length_take] at this
      exact le_trans this (min_le_left _ _)
    omega

/-- `get_matching_blocks` never matches more characters than either
sequence holds. -/
theorem matchTotal_le :
    ∀ (pop : Char → Bool) (fuel : Nat) (a b : List Char),
      matchTotal pop fuel a b ≤ min a.length b.length
  | _, 0, _, _ => Nat.zero_le _
  | pop, fuel + 1, a, b => by
    simp only [matchTotal]
    split
    · exact Nat.zero_le _
    · have hb := bestBlock_bounds pop a b
      have h1 := matchTotal_le pop fuel (a.take (bestBlock pop a b).1)
        (b.take (bestBlock pop a b).2.1)
      have h2 := matchTotal_le pop fuel
        (a.drop ((bestBlock pop a b).1 + (bestBlock pop a b).2.2))
        (b.drop ((bestBlock pop a b).2.1 + (bestBlock pop a b).2.2))
      have h1a := le_trans h1 (min_le_left _ _)
      have h1b := le_trans h1 (min_le_right _ _)
      have h2a := le_trans h2 (min_le_left _ _)
      have h2b := le_trans h2 (min_le_right _ _)
      simp only [List.length_take, List.length_drop] at h1a h1b h2a h2b
      rw [le_min_iff]
      constructor <;> omega

/-- `ratio()` lands in `[0, 1]`. -/
theorem seqMatchScore_bounds (a b : List Char) :
    0 ≤ seqMatchScore a b ∧ seqMatchScore a b ≤ 1 := by
  unfold seqMatchScore
  split
  · norm_num
  · rename_i hlen
    have hm := matchTotal_le (popularSet b) (a.length + b.length) a b
    rw [Rat.mkRat_eq_div]
    constructor
    · apply div_nonneg <;> positivity
    · rw [div_le_one (by positivity)]
      have h2 : 2 * matchTotal (popularSet b) (a.length + b.length) a b ≤
          a.length + b.length := by omega
      exact_mod_cast h2

/-- C10 (amended): `calculate_similarity` always lands in `[0, 1]`; it is
exactly `1` whenever both raw inputs are nonempty and the normalized names
coincide; and it is exactly `0` whenever either raw input is empty — even
if both normalize to the same (empty) name, as the counterexample
records. -/
theorem claim10_similarity_range (s1 s2 : String) :
    (0 ≤ calculate_similarity s1 s2 ∧ calculate_similarity s1 s2 ≤ 1) ∧
    (s1 ≠ "" → s2 ≠ "" → normalize_name s1 = normalize_name s2 →
      calculate_similarity s1 s2 = 1) ∧
    ((s1 = "" ∨ s2 = "") → calculate_similarity s1 s2 = 0) := by
  by_cases h0 : s1 = "" ∨ s2 = ""
  · refine ⟨?_, ?_, fun _ => by simp [calculate_similarity, h0]⟩
    · simp [calculate_similarity, h0]
    · intro hn1 hn2 _
      rcases h0 with h | h
      · exact absurd h hn1
      · exact absurd h hn2
  · by_cases he : normalize_name s1 = normalize_name s2
    · refine ⟨?_, fun _ _ _ => by simp [calculate_similarity, h0, he], fun h => absurd h h0⟩
      simp [calculate_similarity, h0, he]
    · refine ⟨?_, fun _ _ h => absurd h he, fun h => absurd h h0⟩
      simp only [calculate_similarity, if_neg h0, if_neg he]
      split
      · rename_i hcond
        split
        · rename_i huni
          have hsub : (wordSet (normalize_name s1) ∩ wordSet (normalize_name s2)).card ≤
              (wordSet (normalize_name s1) ∪ wordSet (normalize_name s2)).card :=
            Finset.card_le_card (Finset.inter_subset_union)
          rw [Rat.mkRat_eq_div]
          constructor
          · apply div_nonneg <;> positivity
          · rw [div_le_one (by exact_mod_cast huni)]
            exact_mod_cast hsub
        · norm_num
      · have hb := seqMatchScore_bounds (normalize_name s1).toList (normalize_name s2).toList
        split
        · exact hb
        · norm_num

/-- C10 counterexample: on two empty inputs the normalized names agree, yet
the similarity is `0`, not the claimed `1`. -/
theorem claim10_counterexample :
    calculate_similarity "" "" = 0 ∧ normalize_name "" = normalize_name "" ∧
      (0 : ℚ) ≠ 1 := by decide

/-- C10 witness: nickname-equivalent nonempty names score exactly `1`, and
an empty first input scores exactly `0`. -/
theorem claim10_witness :
    calculate_similarity "Bill Smith" "William Smith" = 1 ∧
    calculate_similarity "" "John Smith" = 0 := by
  have h1 := (claim10_similarity_range "Bill Smith" "William Smith").2.1
    (by decide) (by decide) (by decide)
  have h2 := (claim10_similarity_range "" "John Smith").2.2 (Or.inl rfl)
  exact ⟨h1, h2⟩

/-! ### C8 : iterating `normalize_name`

`normalize_name` is not idempotent: removing suffixes happens before
single-letter removal, so a pass can expose a prefix/suffix token that only
the next pass removes (`"smith jr b"` → `"smith jr"` → `"smith"`).  Two
passes do reach a fixed point; the lemmas below characterize the output of
one pass and show the third pass is the identity on it. -/

theorem char_toNat_ofNat {n : Nat} (h : n < 55296) : (Char.ofNat n).toNat = n := by
  have hv : n.isValidChar := Or.inl h
  simp only [Char.ofNat, hv, reduceDIte]
  rfl

theorem charLe_iff_toNat {a b : Char} : a ≤ b ↔ a.toNat ≤ b.toNat := by
  constructor
  · intro h
    exact h
  · intro h
    exact h

theorem lowerChar_idem (c : Char) : lowerChar (lowerChar c) = lowerChar c := by
  unfold lowerChar
  by_cases h : 'A' ≤ c ∧ c ≤ 'Z'
  · rw [if_pos h]
    have h65 : 65 ≤ c.toNat := charLe_iff_toNat.mp h.1
    have h90 : c.toNat ≤ 90 := charLe_iff_toNat.mp h.2
    have htn : (Char.ofNat (c.toNat + 32)).toNat = c.toNat + 32 :=
      char_toNat_ofNat (by omega)
    have hz : ('Z' : Char).toNat = 90 := by decide
    rw [if_neg]
    intro hcon
    have hle := charLe_iff_toNat.mp hcon.2
    rw [htn, hz] at hle
    omega
  · rw [if_neg h, if_neg h]

/-- The boolean conjunction of the character properties preserved by one
normalization pass. -/
def stableChar (c : Char) : Bool :=
  !isWs c && !isPunctNM c && (lowerChar c == c)

theorem stableChar_space : stableChar ' ' = false := by decide

theorem stableChar_not_ws {c : Char} (h : stableChar c = true) : isWs c = false := by
  simp only [stableChar, Bool.and_eq_true, Bool.not_eq_true'] at h
  exact h.1.1

theorem stableChar_not_punct {c : Char} (h : stableChar c = true) :
    isPunctNM c = false := by
  simp only [stableChar, Bool.and_eq_true, Bool.not_eq_true'] at h
  exact h.1.2

theorem stableChar_lower {c : Char} (h : stableChar c = true) : lowerChar c = c := by
  simp only [stableChar, Bool.and_eq_true, beq_iff_eq] at h
  exact h.2

/-! #### Provenance of characters through the string-level steps -/

theorem mem_stripWs {c : Char} {l : List Char} (h : c ∈ stripWs l) : c ∈ l := by
  unfold stripWs dropTrailWs at h
  rw [List.mem_reverse] at h
  have h1 := ((List.dropWhile_sublist isWs).mem h)
  rw [List.mem_reverse] at h1
  exact (List.dropWhile_sublist isWs).mem h1

theorem mem_collapseWs : ∀ (l : List Char), ∀ c ∈ collapseWs l, c = ' ' ∨ c ∈ l
  | [] => by simp [collapseWs]
  | [d] => by
    intro c hc
    simp only [collapseWs] at hc
    by_cases h : isWs d = true
    · rw [if_pos h] at hc
      simp only [List.mem_singleton] at hc
      exact Or.inl hc
    · rw [if_neg h] at hc
      simp only [List.mem_singleton] at hc
      simp [hc]
  | c0 :: d :: rest => by
    intro c hc
    simp only [collapseWs] at hc
    by_cases h0 : isWs c0 = true
    · rw [if_pos h0] at hc
      by_cases h1 : isWs d = true
      · rw [if_pos h1] at hc
        rcases mem_collapseWs (d :: rest) c hc with h2 | h2
        · exact Or.inl h2
        · exact Or.inr (List.mem_cons_of_mem c0 h2)
      · rw [if_neg h1] at hc
        rcases List.mem_cons.mp hc with h2 | h2
        · exact Or.inl h2
        · rcases mem_collapseWs (d :: rest) c h2 with h3 | h3
          · exact Or.inl h3
          · exact Or.inr (List.mem_cons_of_mem c0 h3)
    · rw [if_neg h0] at hc
      rcases List.mem_cons.mp hc with h2 | h2
      · exact Or.inr (h2 ▸ List.mem_cons_self c0 (d :: rest))
      · rcases mem_collapseWs (d :: rest) c h2 with h3 | h3
        · exact Or.inl h3
        · exact Or.inr (List.mem_cons_of_mem c0 h3)

theorem splitWsAux_nil (acc : List Char) :
    splitWsAux [] acc = if acc = [] then [] else [acc.reverse] := rfl

theorem splitWsAux_cons_ws {c : Char} (hc : isWs c = true) (l acc : List Char) :
    splitWsAux (c :: l) acc =
      if acc = [] then splitWsAux l [] else acc.reverse :: splitWsAux l [] := by
  simp [splitWsAux, hc]

theorem splitWsAux_cons_nonws {c : Char} (hc : isWs c = false) (l acc : List Char) :
    splitWsAux (c :: l) acc = splitWsAux l (c :: acc) := by
  simp [splitWsAux, hc]

theorem splitWsAux_words :
    ∀ (l acc : List Char), ∀ w ∈ splitWsAux l acc,
      w ≠ [] ∧ ∀ c ∈ w, (isWs c = false ∧ c ∈ l) ∨ c ∈ acc
  | [], acc => by
    intro w hw
    rw [splitWsAux_nil] at hw
    by_cases hacc : acc = []
    · rw [if_pos hacc] at hw
      simp at hw
    · rw [if_neg hacc] at hw
      simp only [List.mem_singleton] at hw
      subst hw
      refine ⟨by simpa [List.reverse_eq_nil_iff] using hacc, ?_⟩
      intro c hc
      exact Or.inr (List.mem_reverse.mp hc)
  | c0 :: rest, acc => by
    intro w hw
    by_cases hws : isWs c0 = true
    · rw [splitWsAux_cons_ws hws] at hw
      by_cases hacc : acc = []
      · rw [if_pos hacc] at hw
        obtain ⟨hne, hmem⟩ := splitWsAux_words rest [] w hw
        refine ⟨hne, fun c hc => ?_⟩
        rcases hmem c hc with ⟨h1, h2⟩ | h2
        · exact Or.inl ⟨h1, List.mem_cons_of_mem c0 h2⟩
        · simp at h2
      · rw [if_neg hacc] at hw
        rcases List.mem_cons.mp hw with h | h
        · subst h
          refine ⟨by simpa [List.reverse_eq_nil_iff] using hacc, ?_⟩
          intro c hc
          exact Or.inr (List.mem_reverse.mp hc)
        · obtain ⟨hne, hmem⟩ := splitWsAux_words rest [] w h
          refine ⟨hne, fun c hc => ?_⟩
          rcases hmem c hc with ⟨h1, h2⟩ | h2
          · exact Or.inl ⟨h1, List.mem_cons_of_mem c0 h2⟩
          · simp at h2
    · rw [splitWsAux_cons_nonws (by simpa using hws)] at hw
      obtain ⟨hne, hmem⟩ := splitWsAux_words rest (c0 :: acc) w hw
      refine ⟨hne, fun c hc => ?_⟩
      rcases hmem c hc with ⟨h1, h2⟩ | h2
      · exact Or.inl ⟨h1, List.mem_cons_of_mem c0 h2⟩
      · rcases List.mem_cons.mp h2 with h3 | h3
        · refine Or.inl ⟨?_, ?_⟩
          · rw [h3]
            simpa using hws
          · rw [h3]
            exact List.mem_cons_self c0 rest
        · exact Or.inr h3

/-- Words produced by `str.split()` are nonempty, whitespace-free, and made
of characters of the input. -/
theorem splitWs_words {l : List Char} :
    ∀ w ∈ splitWs l, w ≠ [] ∧ ∀ c ∈ w, isWs c = false ∧ c ∈ l := by
  intro w hw
  obtain ⟨hne, hmem⟩ := splitWsAux_words l [] w hw
  refine ⟨hne, fun c hc => ?_⟩
  rcases hmem c hc with h | h
  · exact h
  · simp at h

/-! #### `joinSp` structure -/

theorem joinSp_cons (w : List Char) (ws : List (List Char)) :
    joinSp (w :: ws) = w ++ (if ws.isEmpty then [] else ' ' :: joinSp ws) := by
  cases ws with
  | nil => simp [joinSp]
  | cons w2 ws' => simp [joinSp]

theorem joinSp_head_shape {w : List Char} {lw : List (List Char)} (hne : w ≠ []) :
    ∃ d t, joinSp (w :: lw) = d :: t ∧ d ∈ w := by
  rcases w with _ | ⟨d, w'⟩
  · exact absurd rfl hne
  · rw [joinSp_cons]
    exact ⟨d, w' ++ (if lw.isEmpty then [] else ' ' :: joinSp lw), rfl,
      List.mem_cons_self d w'⟩

theorem mem_joinSp :
    ∀ (lw : List (List Char)), ∀ c ∈ joinSp lw, c = ' ' ∨ ∃ w ∈ lw, c ∈ w
  | [] => by simp [joinSp]
  | [w] => by
    intro c hc
    simp only [joinSp] at hc
    exact Or.inr ⟨w, by simp, hc⟩
  | w :: w2 :: lw' => by
    intro c hc
    simp only [joinSp, List.mem_append, List.mem_cons] at hc
    rcases hc with h | h | h
    · exact Or.inr ⟨w, by simp, h⟩
    · exact Or.inl h
    · rcases mem_joinSp (w2 :: lw') c h with h2 | ⟨u, hu, hcu⟩
      · exact Or.inl h2
      · exact Or.inr ⟨u, List.mem_cons_of_mem w hu, hcu⟩

theorem joinSp_last_shape :
    ∀ (lw : List (List Char)), lw ≠ [] → (∀ w ∈ lw, w ≠ []) →
      ∃ c t, joinSp lw = t ++ [c] ∧ ∃ w ∈ lw, c ∈ w
  | [], h, _ => absurd rfl h
  | [w], _, hws => by
    have hw : w ≠ [] := hws w (by simp)
    refine ⟨w.getLast hw, w.dropLast, ?_, w, by simp, List.getLast_mem hw⟩
    simp [joinSp, List.dropLast_append_getLast hw]
  | w :: w2 :: lw', _, hws => by
    obtain ⟨c, t, hjoin, u, hu, hcu⟩ :=
      joinSp_last_shape (w2 :: lw') (by simp) (fun v hv => hws v (List.mem_cons_of_mem w hv))
    refine ⟨c, w ++ ' ' :: t, ?_, u, List.mem_cons_of_mem w hu, hcu⟩
    simp [joinSp, hjoin]

/-! #### One pass leaves a stable join fixed -/

theorem splitWsAux_push (w : List Char) (rest acc : List Char)
    (hw : ∀ c ∈ w, isWs c = false) :
    splitWsAux (w ++ rest) acc = splitWsAux rest (w.reverse ++ acc) := by
  induction w generalizing acc with
  | nil => simp
  | cons c w' ih =>
    rw [List.cons_append, splitWsAux_cons_nonws (hw c (List.mem_cons_self c w')),
      ih (c :: acc) (fun d hd => hw d (List.mem_cons_of_mem c hd))]
    simp

theorem splitWs_joinSp :
    ∀ (lw : List (List Char)), (∀ w ∈ lw, w ≠ [] ∧ ∀ c ∈ w, isWs c = false) →
      splitWs (joinSp lw) = lw
  | [] => by intro; simp [splitWs, joinSp, splitWsAux]
  | [w] => by
    intro h
    obtain ⟨hne, hnw⟩ := h w (by simp)
    unfold splitWs joinSp
    rw [show w = w ++ ([] : List Char) by simp, splitWsAux_push w [] [] hnw,
      splitWsAux_nil]
    have hacc : w.reverse ++ ([] : List Char) ≠ [] := by
      simpa [List.reverse_eq_nil_iff] using hne
    rw [if_neg hacc]
    simp
  | w :: w2 :: lw' => by
    intro h
    obtain ⟨hne, hnw⟩ := h w (by simp)
    have hrest := splitWs_joinSp (w2 :: lw')
      (fun v hv => h v (List.mem_cons_of_mem w hv))
    unfold splitWs at hrest ⊢
    rw [show joinSp (w :: w2 :: lw') = w ++ (' ' :: joinSp (w2 :: lw')) by simp [joinSp],
      splitWsAux_push w _ [] hnw, splitWsAux_cons_ws (by decide)]
    have hacc : w.reverse ++ ([] : List Char) ≠ [] := by
      simpa [List.reverse_eq_nil_iff] using hne
    rw [if_neg hacc]
    simp [hrest]

theorem collapseWs_word_append :
    ∀ (w r : List Char), (∀ c ∈ w, isWs c = false) →
      collapseWs (w ++ r) = w ++ collapseWs r
  | [], r, _ => by simp
  | c :: w', r, h => by
    have hc : isWs c = false := h c (List.mem_cons_self c w')
    cases hwr : w' ++ r with
    | nil =>
      obtain ⟨hw', hr⟩ := List.append_eq_nil.mp hwr
      subst hw'
      subst hr
      simp [collapseWs, hc]
    | cons d t =>
      have : collapseWs (c :: w' ++ r) = c :: collapseWs (w' ++ r) := by
        simp only [List.cons_append, hwr, collapseWs, hc, Bool.false_eq_true, if_false]
      rw [this, collapseWs_word_append w' r (fun d hd => h d (List.mem_cons_of_mem c hd))]
      simp

theorem collapseWs_joinSp :
    ∀ (lw : List (List Char)),
      (∀ w ∈ lw, w ≠ [] ∧ ∀ c ∈ w, isWs c = false) →
      collapseWs (joinSp lw) = joinSp lw
  | [] => by intro; simp [joinSp, collapseWs]
  | [w] => by
    intro h
    obtain ⟨hne, hnw⟩ := h w (by simp)
    have := collapseWs_word_append w [] hnw
    simpa [joinSp, collapseWs] using this
  | w :: w2 :: lw' => by
    intro h
    obtain ⟨hne, hnw⟩ := h w (by simp)
    have hw2 : w2 ≠ [] := (h w2 (by simp)).1
    have hrest := collapseWs_joinSp (w2 :: lw')
      (fun v hv => h v (List.mem_cons_of_mem w hv))
    obtain ⟨d, t, hshape, hd⟩ := @joinSp_head_shape _ lw' hw2
    have hdnw : isWs d = false := (h w2 (by simp)).2 d hd
    have hj : joinSp (w :: w2 :: lw') = w ++ (' ' :: joinSp (w2 :: lw')) := by
      simp [joinSp]
    have hstep : collapseWs (' ' :: d :: t) = ' ' :: collapseWs (d :: t) := by
      simp only [collapseWs, hdnw]
      rw [if_pos (by decide), if_neg (by simp)]
    rw [hj, collapseWs_word_append w _ hnw, hshape, hstep, ← hshape, hrest]

/-! #### Word-level invariants of one pass -/

/-- The properties a word of one pass's output enjoys: printable length at
least 2, stable characters, and fixed under nickname expansion. -/
def WordOK (w : String) : Prop :=
  2 ≤ w.length ∧ (∀ c ∈ w.toList, stableChar c = true) ∧ nicknameOf w = w

theorem toList_asString (l : List Char) : l.asString.toList = l := rfl

theorem string_asString_toList (s : String) : s.toList.asString = s := by
  cases s
  rfl

theorem dropWhile_idem {α : Type} (p : α → Bool) (l : List α) :
    (l.dropWhile p).dropWhile p = l.dropWhile p := by
  induction l with
  | nil => rfl
  | cons x xs ih =>
    rw [List.dropWhile_cons]
    split
    · exact ih
    · rw [List.dropWhile_cons, if_neg (by assumption)]

theorem dropWhile_eq_self_of_append {α : Type} {p : α → Bool} {u v : List α}
    (h : (u ++ v).dropWhile p = u ++ v) : u.dropWhile p = u := by
  cases u with
  | nil => rfl
  | cons c u' =>
    rw [List.cons_append, List.dropWhile_cons] at h
    split at h
    · have hlen := congrArg List.length h
      have hle := (List.dropWhile_sublist (l := u' ++ v) p).length_le
      simp only [List.length_cons, List.length_append] at hlen hle
      omega
    · rw [List.dropWhile_cons, if_neg (by assumption)]

/-- Every nickname expansion is itself a stable, non-expandable word. -/
theorem nicknameMap_vals_ok :
    nicknameMap.all (fun p =>
      decide (2 ≤ p.2.length) && p.2.toList.all stableChar &&
        (nicknameMap.find? (fun q => q.1 == p.2)).isNone) = true := by decide

theorem mem_normPipe {ws : List String} {w : String} (hw : w ∈ normPipe ws) :
    ∃ u ∈ ws, 1 < u.length ∧ w = nicknameOf u := by
  simp only [normPipe] at hw
  obtain ⟨u, hu3, rfl⟩ := List.mem_map.mp hw
  have hu2 := List.mem_filter.mp hu3
  have huB := List.mem_reverse.mp hu2.1
  have huA := List.mem_reverse.mp ((List.dropWhile_sublist _).mem huB)
  exact ⟨u, (List.dropWhile_sublist _).mem huA, by simpa using hu2.2, rfl⟩

theorem normPipe_out_OK (ws : List String)
    (h : ∀ w ∈ ws, ∀ c ∈ w.toList, stableChar c = true) :
    ∀ w ∈ normPipe ws, WordOK w := by
  intro w hw
  obtain ⟨u, hu, hlen, rfl⟩ := mem_normPipe hw
  rcases hfind : nicknameMap.find? (fun q => q.1 == u) with _ | p
  · have hfix : nicknameOf u = u := by simp [nicknameOf, hfind]
    rw [hfix]
    exact ⟨by omega, h u hu, hfix⟩
  · have hmem := List.mem_of_find?_eq_some hfind
    have hval : nicknameOf u = p.2 := by simp [nicknameOf, hfind]
    rw [hval]
    have hfacts := List.all_eq_true.mp nicknameMap_vals_ok p hmem
    simp only [Bool.and_eq_true, decide_eq_true_eq, List.all_eq_true,
      Option.isNone_iff_eq_none] at hfacts
    refine ⟨hfacts.1.1, hfacts.1.2, ?_⟩
    simp [nicknameOf, hfacts.2]

theorem normPipe_eq_of_OK (ws : List String) (h : ∀ w ∈ ws, WordOK w) :
    normPipe ws =
      ((ws.dropWhile (fun w => prefixes.contains w)).reverse.dropWhile
        (fun w => suffixes.contains w)).reverse := by
  simp only [normPipe]
  have hmemB : ∀ u ∈ ((ws.dropWhile (fun w => prefixes.contains w)).reverse.dropWhile
      (fun w => suffixes.contains w)).reverse, WordOK u := by
    intro u hu
    have huB := List.mem_reverse.mp hu
    have huA := List.mem_reverse.mp ((List.dropWhile_sublist _).mem huB)
    exact h u ((List.dropWhile_sublist _).mem huA)
  rw [List.filter_eq_self.mpr (fun u hu => by
    have := (hmemB u hu).1
    simpa using by omega)]
  have hmap := List.map_congr_left
    (f := nicknameOf) (g := id) (fun u hu => (hmemB u hu).2.2)
  simpa using hmap

theorem normPipe_idem_of_OK (ws : List String) (h : ∀ w ∈ ws, WordOK w) :
    normPipe (normPipe ws) = normPipe ws := by
  have hB := normPipe_eq_of_OK ws h
  have hBOK : ∀ w ∈ normPipe ws, WordOK w := by
    intro u hu
    obtain ⟨v, hv, _, rfl⟩ := mem_normPipe hu
    have hfix := (h v hv).2.2
    rw [hfix]
    exact h v hv
  rw [normPipe_eq_of_OK (normPipe ws) hBOK, hB]
  have hApfx : (ws.dropWhile (fun w => prefixes.contains w)).dropWhile
      (fun w => prefixes.contains w) = ws.dropWhile (fun w => prefixes.contains w) :=
    dropWhile_idem _ ws
  obtain ⟨v, hv⟩ : ∃ v, ws.dropWhile (fun w => prefixes.contains w) =
      ((ws.dropWhile (fun w => prefixes.contains w)).reverse.dropWhile
        (fun w => suffixes.contains w)).reverse ++ v := by
    refine ⟨((ws.dropWhile (fun w => prefixes.contains w)).reverse.takeWhile
      (fun w => suffixes.contains w)).reverse, ?_⟩
    conv_lhs => rw [← List.reverse_reverse (ws.dropWhile (fun w => prefixes.contains w)),
      ← List.takeWhile_append_dropWhile
        (p := fun w => suffixes.contains w)
        (l := (ws.dropWhile (fun w => prefixes.contains w)).reverse)]
    rw [List.reverse_append]
  have hBpfx : (((ws.dropWhile (fun w => prefixes.contains w)).reverse.dropWhile
      (fun w => suffixes.contains w)).reverse).dropWhile (fun w => prefixes.contains w) =
      ((ws.dropWhile (fun w => prefixes.contains w)).reverse.dropWhile
        (fun w => suffixes.contains w)).reverse :=
    dropWhile_eq_self_of_append (v := v) (by rw [← hv]; exact hApfx)
  rw [hBpfx, List.reverse_reverse, dropWhile_idem]

/-! #### One pass is the word pipeline on a stable join -/

theorem stripWs_eq_self {z : List Char} {d c : Char} {t1 t2 : List Char}
    (h1 : z = d :: t1) (hd : isWs d = false) (h2 : z = t2 ++ [c])
    (hc : isWs c = false) : stripWs z = z := by
  have hdw : z.dropWhile isWs = z := by
    rw [h1, List.dropWhile_cons, if_neg (by simp [hd])]
  have hrv : z.reverse.dropWhile isWs = z.reverse := by
    rw [h2, List.reverse_append]
    simp only [List.reverse_singleton, List.singleton_append, List.dropWhile_cons]
    rw [if_neg (by simp [hc])]
  unfold stripWs dropTrailWs
  rw [hdw, hrv, List.reverse_reverse]

theorem joinSp_head_mem :
    ∀ (lw : List (List Char)), lw ≠ [] → (∀ w ∈ lw, w ≠ []) →
      ∃ d t, joinSp lw = d :: t ∧ ∃ w ∈ lw, d ∈ w
  | [], hne, _ => absurd rfl hne
  | w :: lw', _, hws => by
    obtain ⟨d, t, hshape, hd⟩ := @joinSp_head_shape _ lw' (hws w (by simp))
    exact ⟨d, t, hshape, w, by simp, hd⟩

theorem normalize_join_of_OK (ws : List String) (h : ∀ w ∈ ws, WordOK w) :
    normalize_name ((joinSp (ws.map String.toList)).asString) =
      (joinSp ((normPipe ws).map String.toList)).asString := by
  by_cases hws0 : ws = []
  · subst hws0
    have hz : normalize_name "" = "" := by decide
    simpa [joinSp, normPipe] using hz
  have hlw : ∀ w ∈ ws.map String.toList, w ≠ [] ∧ ∀ c ∈ w, isWs c = false := by
    intro w hw
    obtain ⟨u, hu, rfl⟩ := List.mem_map.mp hw
    obtain ⟨hlen, hstable, _⟩ := h u hu
    constructor
    · intro hnil
      have hul : u.toList.length = u.length := rfl
      rw [hnil] at hul
      simp at hul
      omega
    · exact fun c hc => stableChar_not_ws (hstable c hc)
  have hmapne : ws.map String.toList ≠ [] := by
    simpa using hws0
  have hzchars : ∀ c ∈ joinSp (ws.map String.toList), c = ' ' ∨ stableChar c = true := by
    intro c hc
    rcases mem_joinSp _ c hc with hsp | ⟨w, hwmem, hcw⟩
    · exact Or.inl hsp
    · obtain ⟨u, hu, rfl⟩ := List.mem_map.mp hwmem
      exact Or.inr ((h u hu).2.1 c hcw)
  obtain ⟨d, t1, hshape, w0, hw0, hd⟩ :=
    joinSp_head_mem (ws.map String.toList) hmapne (fun w hw => (hlw w hw).1)
  have hdnw : isWs d = false := (hlw w0 hw0).2 d hd
  obtain ⟨cl, t2, hlshape, w2, hw2mem, hclw⟩ :=
    joinSp_last_shape (ws.map String.toList) hmapne (fun w hw => (hlw w hw).1)
  have hclnw : isWs cl = false := (hlw w2 hw2mem).2 cl hclw
  have hne : joinSp (ws.map String.toList) ≠ [] := by
    rw [hshape]
    simp
  have hstrip : stripWs (joinSp (ws.map String.toList)) = joinSp (ws.map String.toList) :=
    stripWs_eq_self hshape hdnw hlshape hclnw
  have hlower : (joinSp (ws.map String.toList)).map lowerChar =
      joinSp (ws.map String.toList) := by
    have := List.map_congr_left (l := joinSp (ws.map String.toList))
      (f := lowerChar) (g := id) (fun c hc => by
        rcases hzchars c hc with hsp | hst
        · rw [hsp]; decide
        · exact stableChar_lower hst)
    simpa using this
  have hcollapse : collapseWs (joinSp (ws.map String.toList)) =
      joinSp (ws.map String.toList) := collapseWs_joinSp _ hlw
  have hfilter : (joinSp (ws.map String.toList)).filter (fun c => !isPunctNM c) =
      joinSp (ws.map String.toList) := by
    rw [List.filter_eq_self]
    intro c hc
    rcases hzchars c hc with hsp | hst
    · rw [hsp]; decide
    · simp [stableChar_not_punct hst]
  have hcomma : (joinSp (ws.map String.toList)).contains ',' = false := by
    cases hcon : (joinSp (ws.map String.toList)).contains ',' with
    | false => rfl
    | true =>
      have hmem : ',' ∈ joinSp (ws.map String.toList) := by
        simpa [List.contains, List.elem_iff] using hcon
      rcases hzchars ',' hmem with hsp | hst
      · simp at hsp
      · have := stableChar_not_punct hst
        simp [isPunctNM] at this
  have hsplit : splitWs (joinSp (ws.map String.toList)) = ws.map String.toList :=
    splitWs_joinSp _ hlw
  have hmaps : (ws.map String.toList).map List.asString = ws := by
    rw [List.map_map]
    have := List.map_congr_left (l := ws)
      (f := List.asString ∘ String.toList) (g := id)
      (fun s _ => string_asString_toList s)
    simpa using this
  simp only [normalize_name, toList_asString]
  rw [if_neg (by rw [hstrip]; exact hne)]
  rw [hlower, hstrip, hcollapse, hfilter, hcomma]
  simp only [Bool.false_eq_true, if_false]
  rw [hsplit, hmaps]

/-- Every `normalize_name` output is the stable join of a word pipeline run
on words with stable characters. -/
theorem normalize_name_shape (x : String) :
    ∃ ws0 : List String,
      normalize_name x = (joinSp ((normPipe ws0).map String.toList)).asString ∧
      ∀ w ∈ ws0, ∀ c ∈ w.toList, stableChar c = true := by
  by_cases hg : stripWs x.toList = []
  · refine ⟨[], ?_, by simp⟩
    simp only [normalize_name, if_pos hg]
    rfl
  · have hcomma : ((collapseWs (stripWs (x.toList.map lowerChar))).filter
        (fun c => !isPunctNM c)).contains ',' = false := by
      cases hcon : ((collapseWs (stripWs (x.toList.map lowerChar))).filter
          (fun c => !isPunctNM c)).contains ',' with
      | false => rfl
      | true =>
        have hmem : ',' ∈ (collapseWs (stripWs (x.toList.map lowerChar))).filter
            (fun c => !isPunctNM c) := by
          simpa [List.contains, List.elem_iff] using hcon
        have := (List.mem_filter.mp hmem).2
        simp [isPunctNM] at this
    refine ⟨(splitWs ((collapseWs (stripWs (x.toList.map lowerChar))).filter
      (fun c => !isPunctNM c))).map List.asString, ?_, ?_⟩
    · simp only [normalize_name, if_neg hg, hcomma, Bool.false_eq_true, if_false]
    · intro w hw c hc
      obtain ⟨wl, hwl, rfl⟩ := List.mem_map.mp hw
      rw [toList_asString] at hc
      obtain ⟨_, hchars⟩ := splitWs_words wl hwl
      obtain ⟨hnws, hmem⟩ := hchars c hc
      have hfil := List.mem_filter.mp hmem
      have hpunct : isPunctNM c = false := by simpa using hfil.2
      have hlower : lowerChar c = c := by
        rcases mem_collapseWs _ c hfil.1 with hsp | hstrip
        · rw [hsp] at hnws
          simp [isWs] at hnws
        · obtain ⟨d, _, rfl⟩ := List.mem_map.mp (mem_stripWs hstrip)
          exact lowerChar_idem d
      simp [stableChar, hnws, hpunct, hlower]

/-- C8 (amended): one application of `normalize_name` is not idempotent
(see the counterexample), but a second application reaches a fixed point:
the third application changes nothing. -/
theorem claim8_double_application_fixed (x : String) :
    normalize_name (normalize_name (normalize_name x)) =
      normalize_name (normalize_name x) := by
  obtain ⟨ws0, hx, hstable⟩ := normalize_name_shape x
  have hOK : ∀ w ∈ normPipe ws0, WordOK w := normPipe_out_OK ws0 hstable
  have hOK2 : ∀ w ∈ normPipe (normPipe ws0), WordOK w :=
    normPipe_out_OK _ (fun w hw => (hOK w hw).2.1)
  rw [hx, normalize_join_of_OK _ hOK, normalize_join_of_OK _ hOK2,
    normPipe_idem_of_OK (normPipe ws0) hOK]

/-- C8 counterexample: suffix stripping runs before single-letter removal,
so one pass over `"smith jr b"` leaves a trailing `"jr"` that only the next
pass removes — `normalize_name` is not idempotent. -/
theorem claim8_counterexample :
    normalize_name (normalize_name "smith jr b") ≠ normalize_name "smith jr b" ∧
    normalize_name "smith jr b" = "smith jr" ∧
    normalize_name (normalize_name "smith jr b") = "smith" := by decide

end SecEdgar
